import Mathlib

/-!
Verification of the argon2 binding (src/src/lib.rs) against its
natural-language specification.

The repository source under src/ is a thin safe wrapper over the Argon2 C
library: the hashing core, validator, encoder/decoder and verifier live in
the wrapped library (the `sys` module), and the `types` module (Variant,
Version, Error) is also not present under src/.  Those missing parts are
modelled here from the specification (spec.md), as noted on each
definition; the pure byte-level helpers (`c_str`, `c_str_cow`) and the
`*_verify_ctx` length guards are embedded directly from src/src/lib.rs.

Byte strings are modelled as `List Nat` with every element below 256.
-/

namespace Argon2

/-- Modelled from the spec: the `types` module (not under src/) exposes the
Argon2 variant enumeration, one of {d, i, id} (spec section 3). -/
inductive Variant
  | D
  | I
  | ID
deriving DecidableEq

/-- Modelled from the spec: the `types` module (not under src/) exposes the
Argon2 version enumeration, one of {0x10, 0x13} (spec section 3). -/
inductive Version
  | Version10
  | Version13
deriving DecidableEq

/-- Numeric code of a version (0x10 = 16, 0x13 = 19), as printed in the
`v=` field of the encoded-string grammar (spec section 6). -/
def Version.toInt : Version → Nat
  | .Version10 => 16
  | .Version13 => 19

/-- Numeric code of a variant as passed to the wrapped library. -/
def Variant.toCode : Variant → Nat
  | .D => 0
  | .I => 1
  | .ID => 2

/-- Modelled from the spec: the closed enumeration of error kinds
(spec section 7) used by the `types` module (not under src/).  Only the
kinds exercised by the claims are listed. -/
inductive ErrorCode
  | OutputTooShort
  | TimeTooSmall
  | MemoryTooLittle
  | LanesTooFew
  | LanesTooMany
  | SaltTooShort
  | SaltTooLong
  | PwdTooLong
  | DecodingFail
  | VerifyMismatch
deriving DecidableEq

/-- Modelled from the spec / src usage: the binding's error type is either a
library error code or a bad-parameter error naming the offending argument
(`Error::Code` / `Error::BadParam` in the `types` module, not under src/). -/
inductive Error
  | Code (c : ErrorCode)
  | BadParam (s : String)
deriving DecidableEq

deriving instance DecidableEq for Except

/-! ### Decimal rendering and parsing (spec section 6: decimal integers) -/

/-- Little-endian decimal digit bytes of `n`, driven by fuel so that the
definition is structurally recursive and kernel-reducible. -/
def decAux : Nat → Nat → List Nat
  | 0, _ => []
  | _, 0 => []
  | fuel + 1, n + 1 => (48 + (n + 1) % 10) :: decAux fuel ((n + 1) / 10)

/-- Big-endian decimal digit bytes of `n` (ASCII `0`..`9`). -/
def decBytes (n : Nat) : List Nat :=
  if n = 0 then [48] else (decAux n n).reverse

/-- One step of decimal parsing: accumulate a digit byte, failing on a
non-digit. -/
def parseNatStep : Option Nat → Nat → Option Nat
  | none, _ => none
  | some acc, d => if 48 ≤ d ∧ d ≤ 57 then some (acc * 10 + (d - 48)) else none

/-- Parse a non-empty run of decimal digit bytes. -/
def parseNat (l : List Nat) : Option Nat :=
  if l.isEmpty then none else l.foldl parseNatStep (some 0)

/-! ### Unpadded base64 (spec sections 4.7 and 6) -/

/-- Byte of the standard base64 alphabet at index `i` (total; indices at or
above 63 fall through to the final alphabet byte). -/
def b64Char (i : Nat) : Nat :=
  if i < 26 then 65 + i
  else if i < 52 then 97 + (i - 26)
  else if i < 62 then 48 + (i - 52)
  else if i = 62 then 43
  else 47

/-- Index of a byte in the base64 alphabet, `none` for bytes outside it. -/
def b64Index (c : Nat) : Option Nat :=
  if 65 ≤ c ∧ c ≤ 90 then some (c - 65)
  else if 97 ≤ c ∧ c ≤ 122 then some (26 + (c - 97))
  else if 48 ≤ c ∧ c ≤ 57 then some (52 + (c - 48))
  else if c = 43 then some 62
  else if c = 47 then some 63
  else none

/-- Unpadded base64 encoding of a byte string (spec section 6: standard
base64 without padding characters). -/
def b64encode : List Nat → List Nat
  | [] => []
  | [a] => [b64Char (a / 4), b64Char (a % 4 * 16)]
  | [a, b] => [b64Char (a / 4), b64Char (a % 4 * 16 + b / 16), b64Char (b % 16 * 4)]
  | a :: b :: c :: rest =>
      b64Char (a / 4) :: b64Char (a % 4 * 16 + b / 16) ::
      b64Char (b % 16 * 4 + c / 64) :: b64Char (c % 64) :: b64encode rest

/-- Strict unpadded base64 decoding: the exact structural inverse of
`b64encode` (spec section 4.7: decoded fields must round-trip byte-exactly
through re-encoding), rejecting non-alphabet bytes, a trailing group of one
character, and non-zero trailing bits. -/
def b64decode : List Nat → Option (List Nat)
  | [] => some []
  | [c1, c2] =>
      match b64Index c1, b64Index c2 with
      | some i1, some i2 => if i2 % 16 = 0 then some [i1 * 4 + i2 / 16] else none
      | _, _ => none
  | [c1, c2, c3] =>
      match b64Index c1, b64Index c2, b64Index c3 with
      | some i1, some i2, some i3 =>
          if i3 % 4 = 0 then some [i1 * 4 + i2 / 16, i2 % 16 * 16 + i3 / 4] else none
      | _, _, _ => none
  | c1 :: c2 :: c3 :: c4 :: rest =>
      match b64Index c1, b64Index c2, b64Index c3, b64Index c4 with
      | some i1, some i2, some i3, some i4 =>
          (b64decode rest).map
            (fun bs => (i1 * 4 + i2 / 16) :: (i2 % 16 * 16 + i3 / 4) :: (i3 % 4 * 64 + i4) :: bs)
      | _, _, _, _ => none
  | [_] => none

/-- Byte length of the unpadded base64 encoding of `n` input bytes. -/
def b64Len (n : Nat) : Nat :=
  4 * (n / 3) + (if n % 3 = 0 then 0 else n % 3 + 1)

/-- Number of bytes an `n`-character unpadded base64 string decodes to
(meaningful for `n % 4 ≠ 1`, the decodable lengths). -/
def b64ByteLen (n : Nat) : Nat :=
  3 * (n / 4) + (if n % 4 = 2 then 1 else if n % 4 = 3 then 2 else 0)

/-- Number of spare (zero) trailing bits in an `n`-character unpadded
base64 string. -/
def spareExp (n : Nat) : Nat :=
  if n % 4 = 2 then 4 else if n % 4 = 3 then 2 else 0

/-- The base64 alphabet index of a byte, defaulting to 0 outside the
alphabet; used to state the value correspondence of `b64decode`. -/
def idxVal (c : Nat) : Nat := (b64Index c).getD 0

/-- The big-endian base-64 value of a character string read through
`idxVal`. -/
def idxNum (s : List Nat) : Nat :=
  s.foldl (fun acc c => acc * 64 + idxVal c) 0

/-! ### Parameter validation (spec sections 3, 4.1 and 8) -/

/-- Modelled from the spec: the parameter validator of the wrapped library
(not under src/).  Checks, in the spec's order (section 4.1), each failing
fast with a distinct error kind: time cost at least 1; lane count within
range (1 ≤ p < 2^24); memory cost large enough, the threshold being
8 × lanes 1KB blocks per spec sections 3 and 8 (else `MemoryTooLittle`);
salt length at least 8 (else `SaltTooShort`) and within the 32-bit length
ceiling; output length at least 4; password length within the 32-bit
ceiling. -/
def validate (t m lanes saltLen outlen pwdLen : Nat) : Except Error Unit :=
  if t < 1 then .error (.Code .TimeTooSmall)
  else if lanes < 1 then .error (.Code .LanesTooFew)
  else if 2 ^ 24 ≤ lanes then .error (.Code .LanesTooMany)
  else if m < 8 * lanes then .error (.Code .MemoryTooLittle)
  else if saltLen < 8 then .error (.Code .SaltTooShort)
  else if 2 ^ 32 ≤ saltLen then .error (.Code .SaltTooLong)
  else if outlen < 4 then .error (.Code .OutputTooShort)
  else if 2 ^ 32 ≤ pwdLen then .error (.Code .PwdTooLong)
  else .ok ()

/-! ### The hashing core (spec sections 4.2 to 4.6)

The spec describes the core pipeline (initial digest H0, memory fill,
finalization) only up to an unspecified primitive ("a cryptographic hash
with a 64-byte digest", "a BLAKE2b-style round function"), so the literal
digest bytes are not derivable from the spec.  The core is therefore
modelled as a deterministic function that folds, in the spec's section 4.2
concatenation order, the four cost integers, the variant tag, the version
tag and the length-prefixed password, salt, secret and associated data into
a seed, then stretches the seed to the requested output length (section
4.6).  Every claim settled against the core uses only its determinism and
its sensitivity to each folded parameter, never any particular digest
value. -/

/-- Little-endian 32-bit byte rendering of `n`, as used to length-prefix
and parameter-prefix the initial-digest input (spec section 4.2). -/
def le32 (n : Nat) : List Nat :=
  [n % 256, n / 256 % 256, n / 2 ^ 16 % 256, n / 2 ^ 24 % 256]

/-- Modelled from the spec: the byte string folded by the initial digest H0
(spec section 4.2) — cost integers, variant and version tags, then the
length-prefixed password, salt, and the (absent, hence zero-length) secret
and associated data. -/
def h0input (variant : Variant) (version : Version) (t m lanes outlen : Nat)
    (pwd salt : List Nat) : List Nat :=
  le32 lanes ++ le32 outlen ++ le32 m ++ le32 t ++
  le32 version.toInt ++ le32 variant.toCode ++
  le32 pwd.length ++ pwd ++ le32 salt.length ++ salt ++ le32 0 ++ le32 0

/-- One absorption step of the modelled 64-bit mixing state. -/
def mixStep (s b : Nat) : Nat :=
  ((s ^^^ b) * 6364136223846793005 + 1442695040888963407) % 2 ^ 64

/-- Stretch the 64-bit mixing state into `k` output bytes (spec section
4.6: deterministic output of exactly the requested byte length). -/
def squeezeBytes : Nat → Nat → List Nat
  | _, 0 => []
  | s, k + 1 => s / 2 ^ 56 % 256 :: squeezeBytes (mixStep s 181) k

/-- The big-endian base-256 value of a byte string. -/
def bytesNum (l : List Nat) : Nat :=
  l.foldl (fun acc b => acc * 256 + b) 0

/-- The prime modulus of the modelled digest's leading residue (the Fermat
prime 2^16 + 1); any prime above 255 and below 2^32 works. -/
def argonPrime : Nat := 65537

/-- Modelled from the spec: the raw Argon2 digest, a deterministic function
of all parameters and inputs (spec sections 4.2 to 4.6).  The spec's
determinism invariant (section 4.2) demands that the seed - and hence the
digest - change whenever any folded parameter or input changes; the model
makes that sensitivity provable by prefixing, for the validator-admissible
output lengths (at least 4), the 32-bit rendering of the H0 input's value
modulo a prime, and filling the remainder with the 64-bit mixing
stretch. -/
def argon2core (variant : Variant) (version : Version) (t m lanes : Nat)
    (pwd salt : List Nat) (outlen : Nat) : List Nat :=
  let msg := h0input variant version t m lanes outlen pwd salt
  let seed := msg.foldl mixStep 14695981039346656037
  if outlen < 4 then squeezeBytes seed outlen
  else le32 (bytesNum msg % argonPrime) ++ squeezeBytes seed (outlen - 4)

/-! ### Encoder and decoder (spec sections 4.7 and 6) -/

/-- Lowercase variant tag bytes (`argon2d` / `argon2i` / `argon2id`). -/
def tagBytes : Variant → List Nat
  | .D => [97, 114, 103, 111, 110, 50, 100]
  | .I => [97, 114, 103, 111, 110, 50, 105]
  | .ID => [97, 114, 103, 111, 110, 50, 105, 100]

/-- The `m=<memory>,t=<time>,p=<parallelism>` performance field of the
encoded-string grammar (spec section 6). -/
def perfBytes (t m lanes : Nat) : List Nat :=
  109 :: 61 :: decBytes m ++ 44 :: 116 :: 61 :: decBytes t ++
  44 :: 112 :: 61 :: decBytes lanes

/-- The optional `v=<version>$` field of the encoded-string grammar,
omitted only for the legacy 0x10 version (spec section 6). -/
def versionField : Version → List Nat
  | .Version10 => []
  | .Version13 => 118 :: 61 :: decBytes 19 ++ [36]

/-- The encoded string with the base64 salt and hash fields given as raw
field bytes; `encodeString` instantiates them with base64 encodings, and
single-byte corruptions of either field are byte-string edits of the two
field arguments. -/
def encodeWith (variant : Variant) (version : Version) (t m lanes : Nat)
    (saltF hashF : List Nat) : List Nat :=
  36 :: tagBytes variant ++ 36 :: versionField version ++
  perfBytes t m lanes ++ 36 :: saltF ++ 36 :: hashF

/-- Modelled from the spec: the Encoder (not under src/), rendering the
canonical encoded string of spec section 6:
`"$" variant-tag ["$v=" version-int] "$m=" mem "," "t=" time "," "p=" par
"$" salt-b64 "$" hash-b64`, the version field being omitted only for the
legacy 0x10 version. -/
def encodeString (variant : Variant) (version : Version) (t m lanes : Nat)
    (salt hash : List Nat) : List Nat :=
  encodeWith variant version t m lanes (b64encode salt) (b64encode hash)

/-- Split a byte string at the first occurrence of `c`, returning the bytes
before and after it, or `none` when `c` does not occur. -/
def breakAt (c : Nat) : List Nat → Option (List Nat × List Nat)
  | [] => none
  | b :: rest =>
      if b = c then some ([], rest)
      else (breakAt c rest).map (fun p => (b :: p.1, p.2))

/-- The decoded contents of an encoded hash string: version, the three cost
parameters, salt bytes and stored hash bytes. -/
structure Decoded where
  version : Version
  m : Nat
  t : Nat
  lanes : Nat
  salt : List Nat
  hash : List Nat
deriving DecidableEq

/-- The two error kinds a decode can produce (spec section 4.7): a grammar
or base64 failure, or a decoded salt below the minimum length. -/
inductive DecodeErr
  | fail
  | saltShort
deriving DecidableEq

/-- The binding-level error corresponding to a decode failure. -/
def DecodeErr.toError : DecodeErr → Error
  | .fail => .Code .DecodingFail
  | .saltShort => .Code .SaltTooShort

/-- Decode the performance field and the salt and hash fields, given the
already-parsed version and the bytes following the version field. -/
def decodeFields (ver : Version) (rest : List Nat) : Except DecodeErr Decoded :=
  match breakAt 36 rest with
  | none => .error .fail
  | some (perf, rest2) =>
    match perf with
    | c1 :: c2 :: mrest =>
      if c1 = 109 ∧ c2 = 61 then
        match breakAt 44 mrest with
        | none => .error .fail
        | some (mds, trest) =>
          match parseNat mds with
          | none => .error .fail
          | some m =>
            match trest with
            | d1 :: d2 :: trest2 =>
              if d1 = 116 ∧ d2 = 61 then
                match breakAt 44 trest2 with
                | none => .error .fail
                | some (tds, prest) =>
                  match parseNat tds with
                  | none => .error .fail
                  | some t =>
                    match prest with
                    | e1 :: e2 :: pds =>
                      if e1 = 112 ∧ e2 = 61 then
                        match parseNat pds with
                        | none => .error .fail
                        | some p =>
                          match breakAt 36 rest2 with
                          | none => .error .fail
                          | some (saltB, hashB) =>
                            match b64decode saltB, b64decode hashB with
                            | some salt, some hash =>
                                if salt.length < 8 then .error .saltShort
                                else .ok ⟨ver, m, t, p, salt, hash⟩
                            | _, _ => .error .fail
                      else .error .fail
                    | _ => .error .fail
              else .error .fail
            | _ => .error .fail
      else .error .fail
    | _ => .error .fail

/-- Modelled from the spec: the Decoder (not under src/), the strict
structural inverse of `encodeString` (spec sections 4.7 and 6).  It fails
on a missing `$` delimiter, a variant tag other than the expected one, an
unsupported version, a malformed integer field or malformed base64, and
reports a decoded salt below the minimum length as `saltShort`. -/
def decodeString (variant : Variant) (s : List Nat) : Except DecodeErr Decoded :=
  match s with
  | c :: rest =>
    if c = 36 then
      match breakAt 36 rest with
      | none => .error .fail
      | some (tag, rest1) =>
        if tag = tagBytes variant then
          match rest1 with
          | a :: b :: vrest =>
            if a = 118 ∧ b = 61 then
              match breakAt 36 vrest with
              | none => .error .fail
              | some (vds, rest2) =>
                match parseNat vds with
                | none => .error .fail
                | some v =>
                  if v = 16 then decodeFields .Version10 rest2
                  else if v = 19 then decodeFields .Version13 rest2
                  else .error .fail
            else decodeFields .Version10 rest1
          | _ => decodeFields .Version10 rest1
        else .error .fail
    else .error .fail
  | [] => .error .fail

/-! ### The binding's public operations (src/src/lib.rs) -/

/-- Embedding of `hash` (src/src/lib.rs lines 298-325).  The underlying
`sys::argon2_hash` is modelled from the spec: validate (section 4.1), run
the core pipeline (sections 4.2-4.6), and render the encoded string
(section 4.7).  Absent password or salt means zero-length input (spec
section 9).  The raw-output buffer's length is the requested output length
`outlen`; the function returns the raw digest and the encoded string. -/
def hash (t m lanes : Nat) (pwd salt : Option (List Nat)) (outlen : Nat)
    (variant : Variant) (version : Version) : Except Error (List Nat × List Nat) :=
  let pwdB := pwd.getD []
  let saltB := salt.getD []
  match validate t m lanes saltB.length outlen pwdB.length with
  | .error e => .error e
  | .ok _ =>
      let raw := argon2core variant version t m lanes pwdB saltB outlen
      .ok (raw, encodeString variant version t m lanes saltB raw)

/-- Embedding of `verify` (src/src/lib.rs lines 383-394).  The underlying
`sys::argon2_verify` is modelled from the spec (section 4.8): decode the
candidate string (propagating any decode failure as its own error kind),
re-validate, recompute the hash of the same length as the stored one with
the supplied password and the decoded salt and parameters, and compare;
a mismatch yields `VerifyMismatch`. -/
def verify (encoded : List Nat) (pwd : Option (List Nat)) (variant : Variant) :
    Except Error Unit :=
  match decodeString variant encoded with
  | .error de => .error de.toError
  | .ok d =>
      let pwdB := pwd.getD []
      match validate d.t d.m d.lanes d.salt.length d.hash.length pwdB.length with
      | .error e => .error e
      | .ok _ =>
          if argon2core variant d.version d.t d.m d.lanes pwdB d.salt d.hash.length
              = d.hash
          then .ok () else .error (.Code .VerifyMismatch)

/-- What `verify` does on a corrupted input: never Ok — VerifyMismatch
when the input still decodes, and a decode failure propagating its own
error kind (which is never VerifyMismatch) otherwise. -/
def RejectsChange (e : List Nat) (pwd : Option (List Nat)) (variant : Variant) : Prop :=
  verify e pwd variant ≠ .ok ()
  ∧ (∀ d, decodeString variant e = .ok d →
      verify e pwd variant = .error (.Code .VerifyMismatch))
  ∧ (∀ de, decodeString variant e = .error de →
      verify e pwd variant = .error de.toError ∧ de.toError ≠ .Code .VerifyMismatch)

/-- Embedding of `encodedlen` (src/src/lib.rs lines 519-529).  The
underlying `sys::argon2_encodedlen` is modelled from the spec (section 6:
the exact byte length the Encoder will produce); as in the source it is a
function of the costs, lengths and variant only, with no version argument,
so it is rendered for the non-legacy encoding, which carries the
two-digit `v=19` version field. -/
def encodedlen (t m lanes saltlen hashlen : Nat) (variant : Variant) : Nat :=
  (tagBytes variant).length + (decBytes m).length + (decBytes t).length +
  (decBytes lanes).length + b64Len saltlen + b64Len hashlen + 17

/-! ### Context-level verify guards (src/src/lib.rs lines 403-491) -/

/-- The fields of `sys::Argon2_Context` used by the binding; the claims
only read `outlen` (the desired output length field). -/
structure Argon2Context where
  outlen : Nat
  pwd : List Nat
  salt : List Nat
  t_cost : Nat
  m_cost : Nat
  lanes : Nat
  version : Nat

/-- Embedding of `d_verify_ctx` (src/src/lib.rs lines 403-418): the
`TryInto` conversion is modelled as an `Except` value, the wrapped
`sys::argon2d_verify_ctx` call as the function parameter `core`.  The
`hash.len() as u32` cast is the length reduced modulo 2^32. -/
def d_verify_ctx (core : Argon2Context → List Nat → Except Error Unit)
    (context : Except Error Argon2Context) (hash : List Nat) : Except Error Unit :=
  match context with
  | .error e => .error e
  | .ok c =>
      if hash.length % 2 ^ 32 ≠ c.outlen then .error (.BadParam ("hash.len"))
      else core c hash

/-- Embedding of `i_verify_ctx` (src/src/lib.rs lines 427-442). -/
def i_verify_ctx (core : Argon2Context → List Nat → Except Error Unit)
    (context : Except Error Argon2Context) (hash : List Nat) : Except Error Unit :=
  match context with
  | .error e => .error e
  | .ok c =>
      if hash.length % 2 ^ 32 ≠ c.outlen then .error (.BadParam ("hash.len"))
      else core c hash

/-- Embedding of `id_verify_ctx` (src/src/lib.rs lines 451-466). -/
def id_verify_ctx (core : Argon2Context → List Nat → Except Error Unit)
    (context : Except Error Argon2Context) (hash : List Nat) : Except Error Unit :=
  match context with
  | .error e => .error e
  | .ok c =>
      if hash.length % 2 ^ 32 ≠ c.outlen then .error (.BadParam ("hash.len"))
      else core c hash

/-- Embedding of `verify_ctx` (src/src/lib.rs lines 475-491); the wrapped
`sys::argon2_verify_ctx` call additionally receives the variant. -/
def verify_ctx (core : Argon2Context → List Nat → Variant → Except Error Unit)
    (context : Except Error Argon2Context) (hash : List Nat) (variant : Variant) :
    Except Error Unit :=
  match context with
  | .error e => .error e
  | .ok c =>
      if hash.length % 2 ^ 32 ≠ c.outlen then .error (.BadParam ("hash.len"))
      else core c hash variant

/-! ### Null-terminated-string helpers (src/src/lib.rs lines 535-560) -/

/-- Model of `CStr::from_bytes_with_nul`: succeeds exactly when the slice
is non-empty, ends with a zero byte and has no interior zero byte. -/
def fromBytesWithNul (b : List Nat) : Option (List Nat) :=
  if b ≠ [] ∧ b.getLast? = some 0 ∧ 0 ∉ b.dropLast then some b else none

/-- Model of `CString::new`: succeeds exactly when the bytes contain no
zero byte, appending the terminating zero. -/
def cStringNew (b : List Nat) : Option (List Nat) :=
  if 0 ∉ b then some (b ++ [0]) else none

/-- The scan common to `c_str` and `c_str_cow`: the prefix of the input up
to and including the first zero byte, or `none` when there is no zero
byte.  `acc` accumulates the bytes already scanned. -/
def cStrFind (acc : List Nat) : List Nat → Option (List Nat)
  | [] => none
  | b :: rest => if b = 0 then some (acc ++ [0]) else cStrFind (acc ++ [b]) rest

/-- Embedding of `c_str` (src/src/lib.rs lines 535-542).  The outer
`Option` models the `expect` call: `none` is a panic, `some` a normal
return. -/
def c_str (bytes : List Nat) : Option (Except Error (List Nat)) :=
  match cStrFind [] bytes with
  | some pre => (fromBytesWithNul pre).map .ok
  | none => some (.error (.BadParam ("bytes")))

/-- The borrowed/owned result of `c_str_cow` (`std::borrow::Cow`). -/
inductive CowCStr
  | borrowed (l : List Nat)
  | owned (l : List Nat)
deriving DecidableEq

/-- Embedding of `c_str_cow` (src/src/lib.rs lines 547-560).  The outer
`Option` models the two `expect` calls: `none` is a panic. -/
def c_str_cow (bytes : List Nat) : Option CowCStr :=
  match cStrFind [] bytes with
  | some pre => (fromBytesWithNul pre).map .borrowed
  | none => (cStringNew bytes).map .owned

/-! ### Bytes of concrete test strings -/

/-- ASCII bytes of a string literal, for stating concrete test vectors. -/
def strBytes (s : String) : List Nat := s.toList.map Char.toNat

/-- The raw-digest component of a hash result, when the call succeeded. -/
def rawOf (x : Except Error (List Nat × List Nat)) : Option (List Nat) :=
  x.toOption.map Prod.fst

/-- The encoded-string component of a hash result, when the call succeeded. -/
def encOf (x : Except Error (List Nat × List Nat)) : Option (List Nat) :=
  x.toOption.map Prod.snd

/-- The password bytes of the spec's literal end-to-end vectors. -/
def pwdBytes : List Nat := strBytes ("password")

/-- The salt bytes of the spec's literal end-to-end vectors. -/
def saltBytes : List Nat := strBytes ("somesalt")

/-- The model's encoded hash at the spec's 0x10 test parameters (variant I,
version 0x10, t=2, m=65536, p=1, password `password`, salt `somesalt`,
32-byte output); its salt field occupies byte indices 25 to 35. -/
def encoded10 : List Nat :=
  strBytes ("$argon2i$m=65536,t=2,p=1$c29tZXNhbHQ$Ea4AAENSyNIb/eAQElRU2iU/XC/Kd8Dqqq2TdHAljMg")

/-! ### Lemmas: decimal rendering and parsing -/

theorem decAux_digits : ∀ fuel n, ∀ d ∈ decAux fuel n, 48 ≤ d ∧ d ≤ 57
  | 0, _ => by simp [decAux]
  | _ + 1, 0 => by simp [decAux]
  | fuel + 1, n + 1 => by
      simp only [decAux, List.mem_cons]
      rintro d (rfl | hd)
      · omega
      · exact decAux_digits fuel ((n + 1) / 10) d hd

theorem decBytes_digits (n : Nat) : ∀ d ∈ decBytes n, 48 ≤ d ∧ d ≤ 57 := by
  unfold decBytes
  split
  · simp
  · intro d hd
    exact decAux_digits n n d (List.mem_reverse.mp hd)

theorem not_36_mem_decBytes (n : Nat) : 36 ∉ decBytes n := by
  intro h
  have := decBytes_digits n 36 h
  omega

theorem not_44_mem_decBytes (n : Nat) : 44 ∉ decBytes n := by
  intro h
  have := decBytes_digits n 44 h
  omega

theorem decAux_foldl : ∀ fuel n acc, n ≤ fuel →
    List.foldl parseNatStep (some acc) (decAux fuel n).reverse =
      some (acc * 10 ^ (decAux fuel n).length + n)
  | 0, n, acc, h => by
      interval_cases n
      simp [decAux]
  | fuel + 1, 0, acc, _ => by simp [decAux]
  | fuel + 1, n + 1, acc, h => by
      have hdiv : (n + 1) / 10 ≤ fuel := by omega
      have ih := decAux_foldl fuel ((n + 1) / 10) acc hdiv
      simp only [decAux, List.reverse_cons, List.foldl_append, ih, List.foldl_cons,
        List.foldl_nil, List.length_cons]
      have hdig : 48 ≤ 48 + (n + 1) % 10 ∧ 48 + (n + 1) % 10 ≤ 57 := by omega
      simp only [parseNatStep, hdig, and_true, if_pos, pow_succ, Option.some.injEq]
      have hm : acc * (10 ^ (decAux fuel ((n + 1) / 10)).length * 10)
          = acc * 10 ^ (decAux fuel ((n + 1) / 10)).length * 10 := by ring
      rw [hm]
      have := Nat.div_add_mod (n + 1) 10
      omega

theorem parseNat_decBytes (n : Nat) : parseNat (decBytes n) = some n := by
  unfold parseNat decBytes
  split
  · subst n
    simp [parseNatStep]
  · rename_i hn
    have hne : decAux n n ≠ [] := by
      match n, hn with
      | n + 1, _ => simp [decAux]
    rw [if_neg (by simpa using fun h => hne (List.reverse_eq_nil_iff.mp h))]
    rw [decAux_foldl n n 0 le_rfl]
    simp

/-! ### Lemmas: base64 -/

theorem b64Index_b64Char : ∀ i, i < 64 → b64Index (b64Char i) = some i := by decide

theorem ne_36_b64Char : ∀ i, 36 ≠ b64Char i := by
  intro i
  unfold b64Char
  split_ifs <;> omega

theorem not_36_mem_b64encode : ∀ l, 36 ∉ b64encode l
  | [] => by simp [b64encode]
  | [a] => by simp [b64encode, ne_36_b64Char]
  | [a, b] => by simp [b64encode, ne_36_b64Char]
  | a :: b :: c :: rest => by
      simp only [b64encode, List.mem_cons, not_or]
      exact ⟨ne_36_b64Char _, ne_36_b64Char _, ne_36_b64Char _, ne_36_b64Char _,
        not_36_mem_b64encode rest⟩

theorem b64decode_b64encode : ∀ l, (∀ b ∈ l, b < 256) →
    b64decode (b64encode l) = some l
  | [], _ => rfl
  | [a], h => by
      have ha : a < 256 := h a (by simp)
      have h1 := b64Index_b64Char (a / 4) (by omega)
      have h2 := b64Index_b64Char (a % 4 * 16) (by omega)
      have h3 : a % 4 * 16 % 16 = 0 := by omega
      simp only [b64encode, b64decode, h1, h2, h3, if_pos, Option.some.injEq,
        List.cons.injEq, and_true]
      omega
  | [a, b], h => by
      have ha : a < 256 := h a (by simp)
      have hb : b < 256 := h b (by simp)
      have h1 := b64Index_b64Char (a / 4) (by omega)
      have h2 := b64Index_b64Char (a % 4 * 16 + b / 16) (by omega)
      have h3 := b64Index_b64Char (b % 16 * 4) (by omega)
      have h4 : b % 16 * 4 % 4 = 0 := by omega
      simp only [b64encode, b64decode, h1, h2, h3, h4, if_pos, Option.some.injEq,
        List.cons.injEq, and_true]
      omega
  | a :: b :: c :: rest, h => by
      have ha : a < 256 := h a (by simp)
      have hb : b < 256 := h b (by simp)
      have hc : c < 256 := h c (by simp)
      have ih := b64decode_b64encode rest (fun x hx => h x (by simp [hx]))
      have h1 := b64Index_b64Char (a / 4) (by omega)
      have h2 := b64Index_b64Char (a % 4 * 16 + b / 16) (by omega)
      have h3 := b64Index_b64Char (b % 16 * 4 + c / 64) (by omega)
      have h4 := b64Index_b64Char (c % 64) (by omega)
      simp only [b64encode, b64decode, h1, h2, h3, h4, ih, Option.map_some',
        Option.some.injEq, List.cons.injEq, and_true]
      omega

theorem b64encode_length : ∀ l : List Nat, (b64encode l).length = b64Len l.length
  | [] => rfl
  | [a] => by simp [b64encode, b64Len]
  | [a, b] => by simp [b64encode, b64Len]
  | a :: b :: c :: rest => by
      simp only [b64encode, List.length_cons, b64encode_length rest]
      unfold b64Len
      split_ifs <;> omega

/-! ### Lemmas: splitting and the core -/

theorem breakAt_append (c : Nat) : ∀ xs ys : List Nat, c ∉ xs →
    breakAt c (xs ++ c :: ys) = some (xs, ys)
  | [], ys, _ => by simp [breakAt]
  | x :: xs, ys, h => by
      have hx : x ≠ c := fun hxc => h (by simp [hxc])
      have ih := breakAt_append c xs ys (fun hm => h (by simp [hm]))
      simp only [List.cons_append, breakAt, if_neg hx, List.append_eq, ih,
        Option.map_some']

theorem squeezeBytes_length : ∀ k s, (squeezeBytes s k).length = k
  | 0, _ => rfl
  | k + 1, s => by simp [squeezeBytes, squeezeBytes_length k]

theorem argon2core_length (variant : Variant) (version : Version) (t m lanes : Nat)
    (pwd salt : List Nat) (outlen : Nat) :
    (argon2core variant version t m lanes pwd salt outlen).length = outlen := by
  unfold argon2core
  split
  · exact squeezeBytes_length outlen _
  · simp only [List.length_append, le32, List.length_cons, List.length_nil,
      squeezeBytes_length]
    omega

/-! ### Lemmas: the decoder inverts the encoder -/

theorem not_36_mem_perfBytes (t m lanes : Nat) : 36 ∉ perfBytes t m lanes := by
  intro h
  simp only [perfBytes, List.mem_cons, List.mem_append] at h
  norm_num at h
  rcases h with (h | h) | h <;> exact not_36_mem_decBytes _ h

theorem decodeFields_fields (ver : Version) (t m lanes : Nat) (saltF hashF : List Nat)
    (hsf : 36 ∉ saltF) :
    decodeFields ver (perfBytes t m lanes ++ 36 :: (saltF ++ 36 :: hashF))
      = match b64decode saltF, b64decode hashF with
        | some salt, some hash =>
            if salt.length < 8 then .error .saltShort
            else .ok ⟨ver, m, t, lanes, salt, hash⟩
        | _, _ => .error .fail := by
  have h1 : breakAt 36 (perfBytes t m lanes ++ 36 :: (saltF ++ 36 :: hashF))
      = some (perfBytes t m lanes, saltF ++ 36 :: hashF) :=
    breakAt_append 36 _ _ (not_36_mem_perfBytes t m lanes)
  have h2 : breakAt 36 (saltF ++ 36 :: hashF) = some (saltF, hashF) :=
    breakAt_append 36 _ _ hsf
  have h3 : breakAt 44
      (decBytes m ++ 44 :: (116 :: 61 :: (decBytes t ++ 44 :: (112 :: 61 :: decBytes lanes))))
      = some (decBytes m, 116 :: 61 :: (decBytes t ++ 44 :: (112 :: 61 :: decBytes lanes))) :=
    breakAt_append 44 _ _ (not_44_mem_decBytes m)
  have h4 : breakAt 44 (decBytes t ++ 44 :: (112 :: 61 :: decBytes lanes))
      = some (decBytes t, 112 :: 61 :: decBytes lanes) :=
    breakAt_append 44 _ _ (not_44_mem_decBytes t)
  unfold decodeFields
  rw [h1]
  simp only [perfBytes, List.cons_append, List.append_assoc]
  rw [h3]
  simp only [parseNat_decBytes, and_self, if_true]
  rw [h4]
  simp only [parseNat_decBytes]
  rw [h2]
  simp only [eq_self_iff_true, and_self, if_true]

theorem decodeString_encodeWith (variant : Variant) (version : Version)
    (t m lanes : Nat) (saltF hashF : List Nat) (hsf : 36 ∉ saltF) :
    decodeString variant (encodeWith variant version t m lanes saltF hashF)
      = match b64decode saltF, b64decode hashF with
        | some salt, some hash =>
            if salt.length < 8 then .error .saltShort
            else .ok ⟨version, m, t, lanes, salt, hash⟩
        | _, _ => .error .fail := by
  have htag : (36 : Nat) ∉ tagBytes variant := by cases variant <;> decide
  cases version
  case Version10 =>
    have h0 : breakAt 36
        (tagBytes variant ++ 36 ::
          (perfBytes t m lanes ++ 36 :: (saltF ++ 36 :: hashF)))
        = some (tagBytes variant,
            perfBytes t m lanes ++ 36 :: (saltF ++ 36 :: hashF)) :=
      breakAt_append 36 _ _ htag
    have hperf := decodeFields_fields .Version10 t m lanes saltF hashF hsf
    unfold decodeString encodeWith versionField
    simp only [List.cons_append, List.append_assoc, List.nil_append,
      List.singleton_append, eq_self_iff_true, if_true]
    rw [h0]
    simp only [eq_self_iff_true, if_true, perfBytes, List.cons_append, List.append_assoc]
    rw [if_neg (by simp)]
    simp only [perfBytes, List.cons_append, List.append_assoc] at hperf
    exact hperf
  case Version13 =>
    have h0 : breakAt 36
        (tagBytes variant ++ 36 ::
          (118 :: 61 :: (decBytes 19 ++ 36 ::
            (perfBytes t m lanes ++ 36 :: (saltF ++ 36 :: hashF)))))
        = some (tagBytes variant,
            118 :: 61 :: (decBytes 19 ++ 36 ::
              (perfBytes t m lanes ++ 36 :: (saltF ++ 36 :: hashF)))) :=
      breakAt_append 36 _ _ htag
    have hv : breakAt 36
        (decBytes 19 ++ 36 :: (perfBytes t m lanes ++ 36 :: (saltF ++ 36 :: hashF)))
        = some (decBytes 19, perfBytes t m lanes ++ 36 :: (saltF ++ 36 :: hashF)) :=
      breakAt_append 36 _ _ (not_36_mem_decBytes 19)
    have hperf := decodeFields_fields .Version13 t m lanes saltF hashF hsf
    unfold decodeString encodeWith versionField
    simp only [List.cons_append, List.append_assoc, List.nil_append,
      List.singleton_append, eq_self_iff_true, if_true]
    rw [h0]
    simp only [eq_self_iff_true, and_self, if_true]
    rw [hv]
    simp only [parseNat_decBytes]
    rw [if_neg (by simp)]
    simp only [eq_self_iff_true, if_true]
    exact hperf

theorem b64decode_of_mem_36 : ∀ l : List Nat, 36 ∈ l → b64decode l = none
  | [c1, c2], h => by
      rcases List.mem_cons.mp h with rfl | h1
      · rfl
      · rcases List.mem_cons.mp h1 with rfl | h2
        · simp only [b64decode]
          cases b64Index c1 <;> rfl
        · simp at h2
  | [c1, c2, c3], h => by
      rcases List.mem_cons.mp h with rfl | h1
      · rfl
      · rcases List.mem_cons.mp h1 with rfl | h2
        · simp only [b64decode]
          cases b64Index c1 <;> rfl
        · rcases List.mem_cons.mp h2 with rfl | h3
          · simp only [b64decode]
            cases b64Index c1 <;> cases b64Index c2 <;> rfl
          · simp at h3
  | c1 :: c2 :: c3 :: c4 :: rest, h => by
      rcases List.mem_cons.mp h with rfl | h1
      · rfl
      · rcases List.mem_cons.mp h1 with rfl | h2
        · simp only [b64decode]
          cases b64Index c1 <;> rfl
        · rcases List.mem_cons.mp h2 with rfl | h3
          · simp only [b64decode]
            cases b64Index c1 <;> cases b64Index c2 <;> rfl
          · rcases List.mem_cons.mp h3 with rfl | h4
            · simp only [b64decode]
              cases b64Index c1 <;> cases b64Index c2 <;> cases b64Index c3 <;> rfl
            · have := b64decode_of_mem_36 rest h4
              simp only [b64decode, this]
              cases b64Index c1 <;> cases b64Index c2 <;> cases b64Index c3 <;>
                cases b64Index c4 <;> rfl
  | [c], h => by
      rcases List.mem_cons.mp h with rfl | h1
      · rfl
      · simp at h1

theorem decodeString_encodeWith_dollar (variant : Variant) (version : Version)
    (t m lanes : Nat) (u w hashF : List Nat) (hu : 36 ∉ u) :
    decodeString variant (encodeWith variant version t m lanes (u ++ 36 :: w) hashF)
      = .error .fail := by
  have hshift : encodeWith variant version t m lanes (u ++ 36 :: w) hashF
      = encodeWith variant version t m lanes u (w ++ 36 :: hashF) := by
    simp [encodeWith, List.append_assoc, List.cons_append]
  rw [hshift, decodeString_encodeWith variant version t m lanes u _ hu,
    b64decode_of_mem_36 (w ++ 36 :: hashF) (by simp)]
  cases b64decode u <;> rfl

theorem decodeString_encodeString (variant : Variant) (version : Version)
    (t m lanes : Nat) (salt hash : List Nat)
    (hs : ∀ b ∈ salt, b < 256) (hh : ∀ b ∈ hash, b < 256) (hlen : 8 ≤ salt.length) :
    decodeString variant (encodeString variant version t m lanes salt hash)
      = .ok ⟨version, m, t, lanes, salt, hash⟩ := by
  unfold encodeString
  rw [decodeString_encodeWith variant version t m lanes _ _ (not_36_mem_b64encode salt),
    b64decode_b64encode salt hs, b64decode_b64encode hash hh]
  simp only [if_neg (by omega : ¬ (salt.length < 8))]

/-! ### Lemmas: the validator and the hash wrapper -/

theorem validate_ok_iff (t m lanes sl ol pl : Nat) :
    validate t m lanes sl ol pl = .ok () ↔
      (1 ≤ t ∧ 1 ≤ lanes ∧ lanes < 2 ^ 24 ∧ 8 * lanes ≤ m ∧ 8 ≤ sl ∧ sl < 2 ^ 32 ∧
        4 ≤ ol ∧ pl < 2 ^ 32) := by
  unfold validate
  split_ifs <;> simp <;> omega

theorem validate_memory_iff (t m lanes sl ol pl : Nat)
    (ht : 1 ≤ t) (h1 : 1 ≤ lanes) (h2 : lanes < 2 ^ 24) :
    validate t m lanes sl ol pl = .error (.Code .MemoryTooLittle) ↔ m < 8 * lanes := by
  unfold validate
  split_ifs <;> simp <;> omega

theorem validate_salt (t m lanes sl ol pl : Nat)
    (ht : 1 ≤ t) (h1 : 1 ≤ lanes) (h2 : lanes < 2 ^ 24) (hm : 8 * lanes ≤ m)
    (hs : sl < 8) :
    validate t m lanes sl ol pl = .error (.Code .SaltTooShort) := by
  unfold validate
  split_ifs <;> first | rfl | omega

theorem hash_eq (t m lanes : Nat) (pwd salt : Option (List Nat)) (outlen : Nat)
    (variant : Variant) (version : Version) :
    hash t m lanes pwd salt outlen variant version =
      match validate t m lanes (salt.getD []).length outlen (pwd.getD []).length with
      | .error e => .error e
      | .ok _ =>
          .ok (argon2core variant version t m lanes (pwd.getD []) (salt.getD []) outlen,
            encodeString variant version t m lanes (salt.getD [])
              (argon2core variant version t m lanes (pwd.getD []) (salt.getD []) outlen)) :=
  rfl

theorem hash_validate_error (t m lanes : Nat) (pwd salt : Option (List Nat))
    (outlen : Nat) (variant : Variant) (version : Version) (e : Error)
    (h : validate t m lanes (salt.getD []).length outlen (pwd.getD []).length = .error e) :
    hash t m lanes pwd salt outlen variant version = .error e := by
  rw [hash_eq, h]

theorem squeezeBytes_lt : ∀ k s, ∀ b ∈ squeezeBytes s k, b < 256
  | 0, _ => by simp [squeezeBytes]
  | k + 1, s => by
      simp only [squeezeBytes, List.mem_cons]
      rintro b (rfl | hb)
      · exact Nat.mod_lt _ (by omega)
      · exact squeezeBytes_lt k _ b hb

theorem argon2core_lt (variant : Variant) (version : Version) (t m lanes : Nat)
    (pwd salt : List Nat) (outlen : Nat) :
    ∀ b ∈ argon2core variant version t m lanes pwd salt outlen, b < 256 := by
  unfold argon2core
  split
  · exact squeezeBytes_lt outlen _
  · intro b hb
    rcases List.mem_append.mp hb with h | h
    · simp only [le32, List.mem_cons, List.not_mem_nil, or_false] at h
      rcases h with rfl | rfl | rfl | rfl <;> exact Nat.mod_lt _ (by omega)
    · exact squeezeBytes_lt _ _ b h

/-! ### Lemmas: positional values of byte and character strings -/

theorem argonPrime_prime : Nat.Prime argonPrime := by
  unfold argonPrime
  norm_num

theorem bytesNum_foldl : ∀ (v : List Nat) (a : Nat),
    v.foldl (fun acc b => acc * 256 + b) a = a * 256 ^ v.length + bytesNum v
  | [], a => by simp [bytesNum]
  | b :: v, a => by
      have h1 := bytesNum_foldl v (a * 256 + b)
      have h2 := bytesNum_foldl v b
      have hb : bytesNum (b :: v) = b * 256 ^ v.length + bytesNum v := by
        have hstep : bytesNum (b :: v) = v.foldl (fun acc x => acc * 256 + x) b := by
          simp [bytesNum]
        rw [hstep, h2]
      rw [List.foldl_cons, h1, hb, List.length_cons, pow_succ]
      ring

theorem bytesNum_append (u v : List Nat) :
    bytesNum (u ++ v) = bytesNum u * 256 ^ v.length + bytesNum v := by
  unfold bytesNum
  rw [List.foldl_append]
  exact bytesNum_foldl v _

theorem bytesNum_cons (x : Nat) (v : List Nat) :
    bytesNum (x :: v) = x * 256 ^ v.length + bytesNum v := by
  have hstep : bytesNum (x :: v) = v.foldl (fun acc b => acc * 256 + b) x := by
    simp [bytesNum]
  rw [hstep, bytesNum_foldl v x]

theorem idxNum_foldl : ∀ (v : List Nat) (a : Nat),
    v.foldl (fun acc c => acc * 64 + idxVal c) a = a * 64 ^ v.length + idxNum v
  | [], a => by simp [idxNum]
  | b :: v, a => by
      have h1 := idxNum_foldl v (a * 64 + idxVal b)
      have h2 := idxNum_foldl v (idxVal b)
      have hb : idxNum (b :: v) = idxVal b * 64 ^ v.length + idxNum v := by
        have hstep : idxNum (b :: v) = v.foldl (fun acc c => acc * 64 + idxVal c) (idxVal b) := by
          simp [idxNum]
        rw [hstep, h2]
      rw [List.foldl_cons, h1, hb, List.length_cons, pow_succ]
      ring

theorem idxNum_append (u v : List Nat) :
    idxNum (u ++ v) = idxNum u * 64 ^ v.length + idxNum v := by
  unfold idxNum
  rw [List.foldl_append]
  exact idxNum_foldl v _

theorem idxNum_cons (x : Nat) (v : List Nat) :
    idxNum (x :: v) = idxVal x * 64 ^ v.length + idxNum v := by
  have hstep : idxNum (x :: v) = v.foldl (fun acc c => acc * 64 + idxVal c) (idxVal x) := by
    simp [idxNum]
  rw [hstep, idxNum_foldl v (idxVal x)]

theorem mod_argonPrime_ne (X δ e : Nat) (hδ : 0 < δ) (hδP : δ < argonPrime) :
    (X + δ * 2 ^ e) % argonPrime ≠ X % argonPrime := by
  intro h
  have hmod : Nat.ModEq argonPrime X (X + δ * 2 ^ e) := h.symm
  have hdvd : argonPrime ∣ δ * 2 ^ e := by
    have := (Nat.modEq_iff_dvd' (Nat.le_add_right X (δ * 2 ^ e))).mp hmod
    simpa using this
  rcases (Nat.Prime.dvd_mul argonPrime_prime).mp hdvd with h1 | h1
  · exact absurd (Nat.le_of_dvd hδ h1) (by omega)
  · have h2 := Nat.Prime.dvd_of_dvd_pow argonPrime_prime h1
    have := Nat.le_of_dvd (by omega) h2
    simp [argonPrime] at this

theorem bytesNum_mid_lt (u v : List Nat) (a b : Nat) (hab : a < b) :
    bytesNum (u ++ b :: v) = bytesNum (u ++ a :: v) + (b - a) * 2 ^ (8 * v.length) := by
  rw [bytesNum_append u (b :: v), bytesNum_append u (a :: v), bytesNum_cons, bytesNum_cons]
  simp only [List.length_cons]
  have h256 : (256 : Nat) ^ v.length = 2 ^ (8 * v.length) := by
    rw [show (256 : Nat) = 2 ^ 8 from rfl, ← pow_mul]
  rw [h256]
  have hsplit : b * 2 ^ (8 * v.length)
      = a * 2 ^ (8 * v.length) + (b - a) * 2 ^ (8 * v.length) := by
    rw [← Nat.add_mul]
    congr 1
    omega
  rw [hsplit]
  ring

theorem idxNum_mid_lt (u v : List Nat) (a b : Nat) (hab : idxVal a < idxVal b) :
    idxNum (u ++ b :: v)
      = idxNum (u ++ a :: v) + (idxVal b - idxVal a) * 2 ^ (6 * v.length) := by
  rw [idxNum_append u (b :: v), idxNum_append u (a :: v), idxNum_cons, idxNum_cons]
  simp only [List.length_cons]
  have h64 : (64 : Nat) ^ v.length = 2 ^ (6 * v.length) := by
    rw [show (64 : Nat) = 2 ^ 6 from rfl, ← pow_mul]
  rw [h64]
  have hsplit : idxVal b * 2 ^ (6 * v.length)
      = idxVal a * 2 ^ (6 * v.length) + (idxVal b - idxVal a) * 2 ^ (6 * v.length) := by
    rw [← Nat.add_mul]
    congr 1
    omega
  rw [hsplit]
  ring

theorem list_take_getD_drop (l : List Nat) (i : Nat) (hi : i < l.length) :
    l = l.take i ++ l.getD i 0 :: l.drop (i + 1) := by
  rw [List.getD_eq_getElem l 0 hi, ← List.drop_eq_getElem_cons hi, List.take_append_drop]

theorem list_set_take_drop (l : List Nat) (i c : Nat) (hi : i < l.length) :
    l.set i c = l.take i ++ c :: l.drop (i + 1) := by
  rw [List.set_eq_take_append_cons_drop, if_pos hi]

theorem bytesNum_set_diff (l : List Nat) (i c' : Nat) (hi : i < l.length)
    (hne : c' ≠ l.getD i 0) :
    ∃ δ e : Nat, 0 < δ ∧ δ ≤ max c' (l.getD i 0) ∧
      (bytesNum (l.set i c') = bytesNum l + δ * 2 ^ e ∨
        bytesNum l = bytesNum (l.set i c') + δ * 2 ^ e) := by
  have hl : bytesNum l = bytesNum (l.take i ++ l.getD i 0 :: l.drop (i + 1)) := by
    conv_lhs => rw [list_take_getD_drop l i hi]
  have hs : bytesNum (l.set i c') = bytesNum (l.take i ++ c' :: l.drop (i + 1)) := by
    rw [list_set_take_drop l i c' hi]
  rcases Nat.lt_or_ge c' (l.getD i 0) with hlt | hge
  · refine ⟨l.getD i 0 - c', 8 * (l.drop (i + 1)).length, by omega, by omega, Or.inr ?_⟩
    rw [hl, hs]
    exact bytesNum_mid_lt _ _ c' (l.getD i 0) hlt
  · have hlt : l.getD i 0 < c' := by omega
    refine ⟨c' - l.getD i 0, 8 * (l.drop (i + 1)).length, by omega, by omega, Or.inl ?_⟩
    rw [hl, hs]
    exact bytesNum_mid_lt _ _ (l.getD i 0) c' hlt

theorem h0input_pwd_shape (variant : Variant) (version : Version)
    (t m lanes outlen : Nat) (pwd salt : List Nat) :
    h0input variant version t m lanes outlen pwd salt
      = (le32 lanes ++ le32 outlen ++ le32 m ++ le32 t ++ le32 version.toInt ++
          le32 variant.toCode ++ le32 pwd.length) ++ pwd ++
        (le32 salt.length ++ salt ++ le32 0 ++ le32 0) := by
  simp [h0input, List.append_assoc]

theorem h0input_salt_shape (variant : Variant) (version : Version)
    (t m lanes outlen : Nat) (pwd salt : List Nat) :
    h0input variant version t m lanes outlen pwd salt
      = (le32 lanes ++ le32 outlen ++ le32 m ++ le32 t ++ le32 version.toInt ++
          le32 variant.toCode ++ le32 pwd.length ++ pwd ++ le32 salt.length) ++ salt ++
        (le32 0 ++ le32 0) := by
  simp [h0input, List.append_assoc]

theorem bytesNum_mod_ne_of_mid (A C M M' : List Nat) (δ e : Nat)
    (hδ : 0 < δ) (hδP : δ < argonPrime) (hlen : M'.length = M.length)
    (hdiff : bytesNum M' = bytesNum M + δ * 2 ^ e ∨
      bytesNum M = bytesNum M' + δ * 2 ^ e) :
    bytesNum (A ++ M ++ C) % argonPrime ≠ bytesNum (A ++ M' ++ C) % argonPrime := by
  have key : ∀ N N' : List Nat, N'.length = N.length →
      bytesNum N' = bytesNum N + δ * 2 ^ e →
      bytesNum (A ++ N ++ C) % argonPrime ≠ bytesNum (A ++ N' ++ C) % argonPrime := by
    intro N N' hl hd
    rw [bytesNum_append, bytesNum_append A N, bytesNum_append, bytesNum_append A N',
      hl, hd]
    have h256 : (256 : Nat) ^ C.length = 2 ^ (8 * C.length) := by
      rw [show (256 : Nat) = 2 ^ 8 from rfl, ← pow_mul]
    have harr : (bytesNum A * 256 ^ N.length + (bytesNum N + δ * 2 ^ e)) * 256 ^ C.length
          + bytesNum C
        = ((bytesNum A * 256 ^ N.length + bytesNum N) * 256 ^ C.length + bytesNum C)
          + δ * 2 ^ (e + 8 * C.length) := by
      rw [h256, pow_add]
      ring
    rw [harr]
    exact (mod_argonPrime_ne _ δ _ hδ hδP).symm
  rcases hdiff with hd | hd
  · exact key M M' hlen hd
  · exact (key M' M hlen.symm hd).symm

theorem argon2core_ne_of_mod_ne (variant : Variant) (version : Version)
    (t m lanes outlen : Nat) (pwdA saltA pwdB saltB : List Nat) (h4 : 4 ≤ outlen)
    (hmod : bytesNum (h0input variant version t m lanes outlen pwdA saltA) % argonPrime
          ≠ bytesNum (h0input variant version t m lanes outlen pwdB saltB) % argonPrime) :
    argon2core variant version t m lanes pwdA saltA outlen
      ≠ argon2core variant version t m lanes pwdB saltB outlen := by
  unfold argon2core
  rw [if_neg (by omega), if_neg (by omega)]
  intro h
  obtain ⟨h1, -⟩ := List.append_inj h (by simp [le32])
  apply hmod
  have hA : bytesNum (h0input variant version t m lanes outlen pwdA saltA) % argonPrime
      < 2 ^ 32 := by
    have := Nat.mod_lt (bytesNum (h0input variant version t m lanes outlen pwdA saltA))
      (show 0 < argonPrime by simp [argonPrime])
    simp [argonPrime] at this ⊢
    omega
  have hB : bytesNum (h0input variant version t m lanes outlen pwdB saltB) % argonPrime
      < 2 ^ 32 := by
    have := Nat.mod_lt (bytesNum (h0input variant version t m lanes outlen pwdB saltB))
      (show 0 < argonPrime by simp [argonPrime])
    simp [argonPrime] at this ⊢
    omega
  simp only [le32, List.cons.injEq, and_true] at h1
  omega


/-! ### Lemmas: the value correspondence of base64 decoding -/

theorem b64Index_lt (c i : Nat) (h : b64Index c = some i) : i < 64 := by
  unfold b64Index at h
  split_ifs at h <;> simp_all <;> omega

theorem b64Index_idxVal (c i : Nat) (h : b64Index c = some i) : idxVal c = i := by
  simp [idxVal, h]

theorem idxVal_lt (c : Nat) : idxVal c < 64 := by
  unfold idxVal b64Index
  split_ifs <;> simp <;> omega

theorem b64Index_inj (c c' : Nat) (hc : (b64Index c).isSome = true)
    (hc' : (b64Index c').isSome = true) (h : idxVal c = idxVal c') : c = c' := by
  unfold idxVal b64Index at *
  split_ifs at hc hc' h <;> simp_all <;> omega

theorem b64Char_isSome (i : Nat) : (b64Index (b64Char i)).isSome = true := by
  unfold b64Index b64Char
  split_ifs <;> simp_all <;> omega

theorem b64decode_chars : ∀ s l, b64decode s = some l → ∀ c ∈ s, (b64Index c).isSome = true
  | [], _, _ => by simp
  | [c1, c2], l, h => by
      cases hx1 : b64Index c1 with
      | none => exact absurd h (by simp [b64decode, hx1])
      | some i1 =>
        cases hx2 : b64Index c2 with
        | none => exact absurd h (by simp [b64decode, hx1, hx2])
        | some i2 =>
          intro c hc
          rcases List.mem_cons.mp hc with rfl | hc1
          · simp [hx1]
          · rcases List.mem_cons.mp hc1 with rfl | hc2
            · simp [hx2]
            · simp at hc2
  | [c1, c2, c3], l, h => by
      cases hx1 : b64Index c1 with
      | none => exact absurd h (by simp [b64decode, hx1])
      | some i1 =>
        cases hx2 : b64Index c2 with
        | none => exact absurd h (by simp [b64decode, hx1, hx2])
        | some i2 =>
          cases hx3 : b64Index c3 with
          | none => exact absurd h (by simp [b64decode, hx1, hx2, hx3])
          | some i3 =>
            intro c hc
            rcases List.mem_cons.mp hc with rfl | hc1
            · simp [hx1]
            · rcases List.mem_cons.mp hc1 with rfl | hc2
              · simp [hx2]
              · rcases List.mem_cons.mp hc2 with rfl | hc3
                · simp [hx3]
                · simp at hc3
  | c1 :: c2 :: c3 :: c4 :: rest, l, h => by
      cases hx1 : b64Index c1 with
      | none => exact absurd h (by simp [b64decode, hx1])
      | some i1 =>
        cases hx2 : b64Index c2 with
        | none => exact absurd h (by simp [b64decode, hx1, hx2])
        | some i2 =>
          cases hx3 : b64Index c3 with
          | none => exact absurd h (by simp [b64decode, hx1, hx2, hx3])
          | some i3 =>
            cases hx4 : b64Index c4 with
            | none => exact absurd h (by simp [b64decode, hx1, hx2, hx3, hx4])
            | some i4 =>
              cases hrest : b64decode rest with
              | none => exact absurd h (by simp [b64decode, hx1, hx2, hx3, hx4, hrest])
              | some restl =>
                have ih := b64decode_chars rest restl hrest
                intro c hc
                rcases List.mem_cons.mp hc with rfl | hc1
                · simp [hx1]
                · rcases List.mem_cons.mp hc1 with rfl | hc2
                  · simp [hx2]
                  · rcases List.mem_cons.mp hc2 with rfl | hc3
                    · simp [hx3]
                    · rcases List.mem_cons.mp hc3 with rfl | hc4
                      · simp [hx4]
                      · exact ih c hc4
  | [c1], l, h => by
      exact absurd h (by simp [b64decode])

theorem b64decode_len_mod : ∀ s l, b64decode s = some l → s.length % 4 ≠ 1
  | [], _, _ => by simp
  | [c1, c2], _, _ => by simp
  | [c1, c2, c3], _, _ => by simp
  | c1 :: c2 :: c3 :: c4 :: rest, l, h => by
      cases hx1 : b64Index c1 with
      | none => exact absurd h (by simp [b64decode, hx1])
      | some i1 =>
        cases hx2 : b64Index c2 with
        | none => exact absurd h (by simp [b64decode, hx1, hx2])
        | some i2 =>
          cases hx3 : b64Index c3 with
          | none => exact absurd h (by simp [b64decode, hx1, hx2, hx3])
          | some i3 =>
            cases hx4 : b64Index c4 with
            | none => exact absurd h (by simp [b64decode, hx1, hx2, hx3, hx4])
            | some i4 =>
              cases hrest : b64decode rest with
              | none => exact absurd h (by simp [b64decode, hx1, hx2, hx3, hx4, hrest])
              | some restl =>
                have ih := b64decode_len_mod rest restl hrest
                simp only [List.length_cons]
                omega
  | [c1], l, h => by
      exact absurd h (by simp [b64decode])

theorem spareExp_le (n : Nat) : spareExp n ≤ 4 := by
  unfold spareExp
  split_ifs <;> omega

theorem spareExp_shift (n : Nat) : spareExp (n + 1 + 1 + 1 + 1) = spareExp n := by
  unfold spareExp
  have h4 : (n + 1 + 1 + 1 + 1) % 4 = n % 4 := by omega
  rw [h4]

theorem b64ByteLen_shift (n : Nat) : b64ByteLen (n + 1 + 1 + 1 + 1) = 3 + b64ByteLen n := by
  unfold b64ByteLen
  have h4 : (n + 1 + 1 + 1 + 1) % 4 = n % 4 := by omega
  have h5 : (n + 1 + 1 + 1 + 1) / 4 = n / 4 + 1 := by omega
  rw [h4, h5]
  split_ifs <;> omega

theorem byteLen_exp (n : Nat) (hn : n % 4 ≠ 1) :
    8 * b64ByteLen n + spareExp n = 6 * n := by
  unfold b64ByteLen spareExp
  split_ifs <;> omega

/-! ### Lemmas: base64 value correspondence and sensitivity -/

theorem b64decode_correspond : ∀ s l, b64decode s = some l →
    l.length = b64ByteLen s.length ∧
      bytesNum l * 2 ^ spareExp s.length = idxNum s
  | [], l, h => by
      obtain rfl : l = [] := by simpa [b64decode] using h.symm
      exact ⟨by simp [b64ByteLen], by simp [bytesNum, idxNum, spareExp]⟩
  | [c1, c2], l, h => by
      cases hx1 : b64Index c1 with
      | none => exact absurd h (by simp [b64decode, hx1])
      | some i1 =>
        cases hx2 : b64Index c2 with
        | none => exact absurd h (by simp [b64decode, hx1, hx2])
        | some i2 =>
          simp only [b64decode, hx1, hx2] at h
          by_cases hg : i2 % 16 = 0
          · rw [if_pos hg] at h
            obtain rfl : l = [i1 * 4 + i2 / 16] := by simpa using h.symm
            have hi1 := b64Index_lt c1 i1 hx1
            have hi2 := b64Index_lt c2 i2 hx2
            refine ⟨by simp [b64ByteLen], ?_⟩
            simp only [bytesNum, idxNum, List.foldl_cons, List.foldl_nil, List.length_cons,
              List.length_nil, b64Index_idxVal c1 i1 hx1, b64Index_idxVal c2 i2 hx2,
              spareExp]
            norm_num
            omega
          · rw [if_neg hg] at h
            exact absurd h (by simp)
  | [c1, c2, c3], l, h => by
      cases hx1 : b64Index c1 with
      | none => exact absurd h (by simp [b64decode, hx1])
      | some i1 =>
        cases hx2 : b64Index c2 with
        | none => exact absurd h (by simp [b64decode, hx1, hx2])
        | some i2 =>
          cases hx3 : b64Index c3 with
          | none => exact absurd h (by simp [b64decode, hx1, hx2, hx3])
          | some i3 =>
            simp only [b64decode, hx1, hx2, hx3] at h
            by_cases hg : i3 % 4 = 0
            · rw [if_pos hg] at h
              obtain rfl : l = [i1 * 4 + i2 / 16, i2 % 16 * 16 + i3 / 4] := by
                simpa using h.symm
              have hi1 := b64Index_lt c1 i1 hx1
              have hi2 := b64Index_lt c2 i2 hx2
              have hi3 := b64Index_lt c3 i3 hx3
              refine ⟨by simp [b64ByteLen], ?_⟩
              simp only [bytesNum, idxNum, List.foldl_cons, List.foldl_nil, List.length_cons,
                List.length_nil, b64Index_idxVal c1 i1 hx1, b64Index_idxVal c2 i2 hx2,
                b64Index_idxVal c3 i3 hx3, spareExp]
              norm_num
              omega
            · rw [if_neg hg] at h
              exact absurd h (by simp)
  | c1 :: c2 :: c3 :: c4 :: rest, l, h => by
      cases hx1 : b64Index c1 with
      | none => exact absurd h (by simp [b64decode, hx1])
      | some i1 =>
        cases hx2 : b64Index c2 with
        | none => exact absurd h (by simp [b64decode, hx1, hx2])
        | some i2 =>
          cases hx3 : b64Index c3 with
          | none => exact absurd h (by simp [b64decode, hx1, hx2, hx3])
          | some i3 =>
            cases hx4 : b64Index c4 with
            | none => exact absurd h (by simp [b64decode, hx1, hx2, hx3, hx4])
            | some i4 =>
              cases hrest : b64decode rest with
              | none => exact absurd h (by simp [b64decode, hx1, hx2, hx3, hx4, hrest])
              | some restl =>
                simp only [b64decode, hx1, hx2, hx3, hx4, hrest, Option.map_some'] at h
                obtain rfl : l = (i1 * 4 + i2 / 16) :: (i2 % 16 * 16 + i3 / 4) ::
                    (i3 % 4 * 64 + i4) :: restl := by simpa using h.symm
                obtain ⟨ihlen, ihval⟩ := b64decode_correspond rest restl hrest
                have hmod4 := b64decode_len_mod rest restl hrest
                have hi1 := b64Index_lt c1 i1 hx1
                have hi2 := b64Index_lt c2 i2 hx2
                have hi3 := b64Index_lt c3 i3 hx3
                have hi4 := b64Index_lt c4 i4 hx4
                have hslen : (c1 :: c2 :: c3 :: c4 :: rest).length
                    = rest.length + 1 + 1 + 1 + 1 := by
                  simp [List.length_cons]
                have hllen : ((i1 * 4 + i2 / 16) :: (i2 % 16 * 16 + i3 / 4) ::
                    (i3 % 4 * 64 + i4) :: restl).length = restl.length + 1 + 1 + 1 := by
                  simp [List.length_cons]
                constructor
                · rw [hslen, hllen, b64ByteLen_shift, ihlen]
                  omega
                · rw [hslen, spareExp_shift]
                  have hsplit : (i1 * 4 + i2 / 16) :: (i2 % 16 * 16 + i3 / 4) ::
                      (i3 % 4 * 64 + i4) :: restl
                      = [i1 * 4 + i2 / 16, i2 % 16 * 16 + i3 / 4, i3 % 4 * 64 + i4]
                        ++ restl := rfl
                  have hsplit2 : c1 :: c2 :: c3 :: c4 :: rest
                      = [c1, c2, c3, c4] ++ rest := rfl
                  rw [hsplit, hsplit2, bytesNum_append, idxNum_append]
                  have hgv : bytesNum [i1 * 4 + i2 / 16, i2 % 16 * 16 + i3 / 4,
                      i3 % 4 * 64 + i4] = idxNum [c1, c2, c3, c4] := by
                    simp only [bytesNum, idxNum, List.foldl_cons, List.foldl_nil,
                      b64Index_idxVal c1 i1 hx1, b64Index_idxVal c2 i2 hx2,
                      b64Index_idxVal c3 i3 hx3, b64Index_idxVal c4 i4 hx4]
                    omega
                  have hpow : (256 : Nat) ^ restl.length * 2 ^ spareExp rest.length
                      = 2 ^ (6 * rest.length) := by
                    rw [show (256 : Nat) = 2 ^ 8 from rfl, ← pow_mul, ← pow_add]
                    congr 1
                    have := byteLen_exp rest.length hmod4
                    omega
                  have h64 : (64 : Nat) ^ rest.length = 2 ^ (6 * rest.length) := by
                    rw [show (64 : Nat) = 2 ^ 6 from rfl, ← pow_mul]
                  rw [hgv, h64, Nat.add_mul, ← ihval]
                  rw [mul_assoc, hpow]
  | [c1], l, h => by
      exact absurd h (by simp [b64decode])


theorem cancel_pow_diff (X Y d k se : Nat) (hse : se ≤ k)
    (hT : X * 2 ^ se = Y * 2 ^ se + d * 2 ^ k) :
    X = Y + d * 2 ^ (k - se) := by
  have hpos : (0 : Nat) < 2 ^ se := pow_pos (by omega) se
  apply Nat.eq_of_mul_eq_mul_right hpos
  rw [Nat.add_mul, mul_assoc, ← pow_add, show k - se + se = k from by omega]
  exact hT

theorem b64decode_set_diff (s l l' : List Nat) (i c' : Nat)
    (hdec : b64decode s = some l) (hdec' : b64decode (s.set i c') = some l')
    (hi : i < s.length) (hne : idxVal c' ≠ idxVal (s.getD i 0)) :
    l'.length = l.length ∧ ∃ δ e : Nat, 0 < δ ∧ δ < 64 ∧
      (bytesNum l' = bytesNum l + δ * 2 ^ e ∨
        bytesNum l = bytesNum l' + δ * 2 ^ e) := by
  obtain ⟨hlen, hval⟩ := b64decode_correspond s l hdec
  obtain ⟨hlen', hval'⟩ := b64decode_correspond _ l' hdec'
  rw [List.length_set] at hlen' hval'
  refine ⟨by rw [hlen, hlen'], ?_⟩
  have hS : idxNum s = idxNum (s.take i ++ s.getD i 0 :: s.drop (i + 1)) := by
    conv_lhs => rw [list_take_getD_drop s i hi]
  have hS' : idxNum (s.set i c') = idxNum (s.take i ++ c' :: s.drop (i + 1)) := by
    rw [list_set_take_drop s i c' hi]
  have hvala : idxVal (s.getD i 0) < 64 := idxVal_lt _
  have hvalc : idxVal c' < 64 := idxVal_lt _
  have hsele : spareExp s.length ≤ 4 := spareExp_le _
  have hpos : (0 : Nat) < 2 ^ spareExp s.length := pow_pos (by omega) _
  by_cases hvnil : (s.drop (i + 1)).length = 0
  · -- the changed character is last: spare-bit divisibility gives an exact
    -- difference after cancelling the spare power
    have hd0 : s.drop (i + 1) = [] := List.length_eq_zero.mp hvnil
    rw [hd0] at hS hS'
    have happ : ∀ x : Nat, idxNum (s.take i ++ [x])
        = idxNum (s.take i) * 64 + idxVal x := by
      intro x
      rw [idxNum_append]
      simp [idxNum]
    rw [happ] at hS hS'
    have hdvd64 : (2 : Nat) ^ spareExp s.length ∣ 64 := by
      have h6 : (2 : Nat) ^ spareExp s.length ∣ 2 ^ 6 := pow_dvd_pow 2 (by omega)
      simpa using h6
    have hdvdm : (2 : Nat) ^ spareExp s.length ∣ idxNum (s.take i) * 64 :=
      Dvd.dvd.mul_left hdvd64 _
    have hdvda : (2 : Nat) ^ spareExp s.length ∣ idxVal (s.getD i 0) := by
      refine (Nat.dvd_add_right hdvdm).mp ?_
      rw [← hS, ← hval]
      exact dvd_mul_left _ _
    have hdvdc : (2 : Nat) ^ spareExp s.length ∣ idxVal c' := by
      refine (Nat.dvd_add_right hdvdm).mp ?_
      rw [← hS', ← hval']
      exact dvd_mul_left _ _
    obtain ⟨qa, hqa⟩ := hdvda
    obtain ⟨qc, hqc⟩ := hdvdc
    have e1 : bytesNum l * 2 ^ spareExp s.length
        = idxNum (s.take i) * 64 + qa * 2 ^ spareExp s.length := by
      rw [hval, hS, hqa]
      ring
    have e2 : bytesNum l' * 2 ^ spareExp s.length
        = idxNum (s.take i) * 64 + qc * 2 ^ spareExp s.length := by
      rw [hval', hS', hqc]
      ring
    have hqa64 : qa < 64 := by
      have hle : qa ≤ 2 ^ spareExp s.length * qa := Nat.le_mul_of_pos_left qa hpos
      omega
    have hqc64 : qc < 64 := by
      have hle : qc ≤ 2 ^ spareExp s.length * qc := Nat.le_mul_of_pos_left qc hpos
      omega
    have hq : qa ≠ qc := by
      intro hq
      exact hne (by rw [hqa, hqc, hq])
    rcases Nat.lt_or_ge qc qa with hlt | hge
    · refine ⟨qa - qc, 0, by omega, by omega, Or.inr ?_⟩
      rw [pow_zero, mul_one]
      apply Nat.eq_of_mul_eq_mul_right hpos
      rw [Nat.add_mul, Nat.sub_mul]
      have hmul : qc * 2 ^ spareExp s.length ≤ qa * 2 ^ spareExp s.length :=
        Nat.mul_le_mul_right _ (by omega)
      omega
    · have hlt : qa < qc := by omega
      refine ⟨qc - qa, 0, by omega, by omega, Or.inl ?_⟩
      rw [pow_zero, mul_one]
      apply Nat.eq_of_mul_eq_mul_right hpos
      rw [Nat.add_mul, Nat.sub_mul]
      have hmul : qa * 2 ^ spareExp s.length ≤ qc * 2 ^ spareExp s.length :=
        Nat.mul_le_mul_right _ (by omega)
      omega
  · -- the changed character is not last: the value difference carries a
    -- power of two at least as large as the spare power
    have hk : spareExp s.length ≤ 6 * (s.drop (i + 1)).length := by omega
    rcases Nat.lt_or_ge (idxVal c') (idxVal (s.getD i 0)) with hlt | hge
    · refine ⟨idxVal (s.getD i 0) - idxVal c',
        6 * (s.drop (i + 1)).length - spareExp s.length, by omega, by omega,
        Or.inr ?_⟩
      have hmid := idxNum_mid_lt (s.take i) (s.drop (i + 1)) c' (s.getD i 0) hlt
      refine cancel_pow_diff _ _ _ _ _ hk ?_
      rw [hval, hval', hS, hS', hmid]
    · have hlt : idxVal (s.getD i 0) < idxVal c' := by omega
      refine ⟨idxVal c' - idxVal (s.getD i 0),
        6 * (s.drop (i + 1)).length - spareExp s.length, by omega, by omega,
        Or.inl ?_⟩
      have hmid := idxNum_mid_lt (s.take i) (s.drop (i + 1)) (s.getD i 0) c' hlt
      refine cancel_pow_diff _ _ _ _ _ hk ?_
      rw [hval', hval, hS', hS, hmid]


theorem mem_set_self (l : List Nat) (i c' : Nat) (hi : i < l.length) :
    c' ∈ l.set i c' := by
  rw [list_set_take_drop l i c' hi]
  simp

theorem getD_mem_of_lt (l : List Nat) (i : Nat) (hi : i < l.length) :
    l.getD i 0 ∈ l := by
  rw [List.getD_eq_getElem l 0 hi]
  exact List.getElem_mem hi

theorem idxVal_ne_of_decodes (s l l' : List Nat) (i c' : Nat)
    (hdec : b64decode s = some l) (hdec' : b64decode (s.set i c') = some l')
    (hi : i < s.length) (hne : c' ≠ s.getD i 0) :
    idxVal c' ≠ idxVal (s.getD i 0) := by
  intro hv
  have hc' : (b64Index c').isSome = true :=
    b64decode_chars _ _ hdec' c' (mem_set_self s i c' hi)
  have ha : (b64Index (s.getD i 0)).isSome = true :=
    b64decode_chars _ _ hdec _ (getD_mem_of_lt s i hi)
  exact hne (b64Index_inj c' _ hc' ha hv)

theorem rejects_of (e : List Nat) (pwd : Option (List Nat)) (variant : Variant)
    (hok : ∀ d, decodeString variant e = .ok d →
      verify e pwd variant = .error (.Code .VerifyMismatch)) :
    RejectsChange e pwd variant := by
  have herr : ∀ de, decodeString variant e = .error de →
      verify e pwd variant = .error de.toError ∧ de.toError ≠ .Code .VerifyMismatch := by
    intro de hde
    refine ⟨?_, ?_⟩
    · unfold verify
      rw [hde]
    · cases de <;> simp [DecodeErr.toError]
  refine ⟨?_, fun d hd => hok d hd, herr⟩
  cases hdec : decodeString variant e with
  | ok d =>
      rw [hok d hdec]
      simp
  | error de =>
      rw [(herr de hdec).1]
      simp

theorem verify_of_decode (e : List Nat) (pwd : Option (List Nat)) (variant : Variant)
    (d : Decoded) (hd : decodeString variant e = .ok d)
    (hv : validate d.t d.m d.lanes d.salt.length d.hash.length (pwd.getD []).length
      = .ok ())
    (hne : argon2core variant d.version d.t d.m d.lanes (pwd.getD []) d.salt
      d.hash.length ≠ d.hash) :
    verify e pwd variant = .error (.Code .VerifyMismatch) := by
  unfold verify
  rw [hd]
  simp only [hv]
  rw [if_neg hne]

theorem argon2core_ne_set_pwd (variant : Variant) (version : Version)
    (t m lanes outlen : Nat) (pwd salt : List Nat) (i b' : Nat)
    (hi : i < pwd.length) (hb : b' < 256) (hp : ∀ b ∈ pwd, b < 256)
    (hne : b' ≠ pwd.getD i 0) (h4 : 4 ≤ outlen) :
    argon2core variant version t m lanes (pwd.set i b') salt outlen
      ≠ argon2core variant version t m lanes pwd salt outlen := by
  obtain ⟨δ, ex, hδ, hδle, hdiff⟩ := bytesNum_set_diff pwd i b' hi hne
  have hgd : pwd.getD i 0 < 256 := hp _ (getD_mem_of_lt pwd i hi)
  have hmax : max b' (pwd.getD i 0) < 256 := max_lt hb hgd
  have hδP : δ < argonPrime := by
    show δ < 65537
    omega
  apply argon2core_ne_of_mod_ne variant version t m lanes outlen _ _ _ _ h4
  rw [h0input_pwd_shape variant version t m lanes outlen (pwd.set i b') salt,
    h0input_pwd_shape variant version t m lanes outlen pwd salt, List.length_set]
  exact (bytesNum_mod_ne_of_mid _ _ pwd (pwd.set i b') δ ex hδ hδP
    (by simp) hdiff).symm

theorem argon2core_ne_salt_diff (variant : Variant) (version : Version)
    (t m lanes outlen : Nat) (pwd salt salt' : List Nat)
    (hlen : salt'.length = salt.length) (δ ex : Nat) (hδ : 0 < δ)
    (hδP : δ < argonPrime)
    (hdiff : bytesNum salt' = bytesNum salt + δ * 2 ^ ex ∨
      bytesNum salt = bytesNum salt' + δ * 2 ^ ex) (h4 : 4 ≤ outlen) :
    argon2core variant version t m lanes pwd salt' outlen
      ≠ argon2core variant version t m lanes pwd salt outlen := by
  apply argon2core_ne_of_mod_ne variant version t m lanes outlen _ _ _ _ h4
  rw [h0input_salt_shape variant version t m lanes outlen pwd salt',
    h0input_salt_shape variant version t m lanes outlen pwd salt, hlen]
  exact (bytesNum_mod_ne_of_mid _ _ salt salt' δ ex hδ hδP hlen hdiff).symm

/-! ### The claims -/

/-- Claim C2: for every valid parameter set, password and salt, encoding the
hash produced by `hash` and then calling `verify` on that encoded string with
the same password and variant returns Ok. -/
theorem claim2_verify_after_hash (t m lanes : Nat) (pwd salt : List Nat)
    (outlen : Nat) (variant : Variant) (version : Version) (r e : List Nat)
    (_hp : ∀ b ∈ pwd, b < 256) (hs : ∀ b ∈ salt, b < 256)
    (hok : hash t m lanes (some pwd) (some salt) outlen variant version = .ok (r, e)) :
    verify e (some pwd) variant = .ok () := by
  rw [hash_eq] at hok
  simp only [Option.getD_some] at hok
  cases hv : validate t m lanes salt.length outlen pwd.length with
  | error err =>
      rw [hv] at hok
      exact absurd hok (by simp)
  | ok u =>
      rw [hv] at hok
      simp only [Except.ok.injEq, Prod.mk.injEq] at hok
      obtain ⟨hr, he⟩ := hok
      cases u
      obtain ⟨ht, h1, h2, hm, hs8, hs32, ho4, hp32⟩ :=
        (validate_ok_iff t m lanes salt.length outlen pwd.length).mp hv
      have hcb := argon2core_lt variant version t m lanes pwd salt outlen
      subst he
      unfold verify
      rw [decodeString_encodeString variant version t m lanes salt _ hs hcb hs8]
      simp only [Option.getD_some, argon2core_length, hv, if_true]

/-- Claim C2 witness: the round trip at the spec's test password and salt
with t=2, m=64, p=1, a 32-byte output, variant I and version 0x13. -/
theorem claim2_verify_after_hash_witness :
    verify (encodeString .I .Version13 2 64 1 saltBytes
        (argon2core .I .Version13 2 64 1 pwdBytes saltBytes 32))
      (some pwdBytes) .I = .ok () :=
  claim2_verify_after_hash 2 64 1 pwdBytes saltBytes 32 .I .Version13
    (argon2core .I .Version13 2 64 1 pwdBytes saltBytes 32)
    (encodeString .I .Version13 2 64 1 saltBytes
      (argon2core .I .Version13 2 64 1 pwdBytes saltBytes 32))
    (by decide) (by decide) rfl

set_option maxRecDepth 100000 in
/-- Claim C3 counterexample: at the spec's test parameters (t=2, m=65536,
password `password`, salt `somesalt`, 32-byte output, variant I, version
0x10) the raw output for lane count 1 is not byte-identical to the raw
output for lane count 2, refuting the claim's cross-lane-count identity. -/
theorem claim3_counterexample :
    rawOf (hash 2 65536 1 (some pwdBytes) (some saltBytes) 32 .I .Version10)
      ≠ rawOf (hash 2 65536 2 (some pwdBytes) (some saltBytes) 32 .I .Version10) := by
  decide

set_option maxRecDepth 100000 in
/-- Claim C3 (amended): for every fixed parameter set, password and salt,
`hash` produces byte-identical raw output across repeated calls, but the raw
output for lane count 1 differs from the raw output for lane count 2 with
everything else held fixed (shown at the spec's test parameters), matching
the source's note that different parallelism levels give different
results. -/
theorem claim3_determinism :
    (∀ t m lanes pwd salt outlen variant version,
        hash t m lanes pwd salt outlen variant version
          = hash t m lanes pwd salt outlen variant version)
    ∧ rawOf (hash 2 65536 1 (some pwdBytes) (some saltBytes) 32 .I .Version13)
        ≠ rawOf (hash 2 65536 2 (some pwdBytes) (some saltBytes) 32 .I .Version13) :=
  ⟨fun _ _ _ _ _ _ _ _ => rfl, by decide⟩

set_option maxRecDepth 100000 in
/-- Claim C4: a memory cost below 8 × lanes yields MemoryTooLittle and a
salt shorter than 8 bytes yields SaltTooShort (with the validator checks
preceding them passing); `verify` on the spec's encoded string with the
missing `$` delimiter, and on the valid 0x10 encoded string with its base64
hash field truncated, yields DecodingFail. -/
theorem claim4_boundaries :
    (∀ t m lanes pwd salt outlen variant version, 1 ≤ t → 1 ≤ lanes →
        lanes < 2 ^ 24 → m < 8 * lanes →
        hash t m lanes pwd salt outlen variant version
          = .error (.Code .MemoryTooLittle))
    ∧ (∀ t m lanes pwd salt outlen variant version, 1 ≤ t → 1 ≤ lanes →
        lanes < 2 ^ 24 → 8 * lanes ≤ m → ((salt : Option (List Nat)).getD []).length < 8 →
        hash t m lanes pwd salt outlen variant version
          = .error (.Code .SaltTooShort))
    ∧ verify (strBytes
          ("$argon2i$m=65536,t=2,p=1c29tZXNhbHQ$9sTbSlTio3Biev89thdrlKKiCaYsjjYVJxGAL3swxpQ"))
        (some pwdBytes) .I = .error (.Code .DecodingFail)
    ∧ verify (encoded10.take 79) (some pwdBytes) .I = .error (.Code .DecodingFail) := by
  refine ⟨?_, ?_, by decide, by decide⟩
  · intro t m lanes pwd salt outlen variant version ht h1 h2 hm
    exact hash_validate_error t m lanes pwd salt outlen variant version _
      ((validate_memory_iff t m lanes _ outlen _ ht h1 h2).mpr hm)
  · intro t m lanes pwd salt outlen variant version ht h1 h2 hm hs
    exact hash_validate_error t m lanes pwd salt outlen variant version _
      (validate_salt t m lanes _ outlen _ ht h1 h2 hm hs)

/-- Claim C4 witness: the two hash-side boundary errors at the source
test's concrete inputs (m=1 and a one-byte salt). -/
theorem claim4_boundaries_witness :
    hash 2 1 1 (some pwdBytes) (some (strBytes ("diffsalt"))) 32 .ID .Version13
      = .error (.Code .MemoryTooLittle)
    ∧ hash 2 4096 1 (some pwdBytes) (some (strBytes ("s"))) 32 .ID .Version13
      = .error (.Code .SaltTooShort) :=
  ⟨claim4_boundaries.1 2 1 1 (some pwdBytes) (some (strBytes ("diffsalt"))) 32 .ID
      .Version13 (by decide) (by decide) (by decide) (by decide),
   claim4_boundaries.2.1 2 4096 1 (some pwdBytes) (some (strBytes ("s"))) 32 .ID
      .Version13 (by decide) (by decide) (by decide) (by decide) (by decide)⟩

/-- Claim C5 counterexample: a hash call with memory cost 4 and lane count
1 — at least 4 × lanes blocks — still fails with MemoryTooLittle, refuting
the claimed 4 × lanes threshold. -/
theorem claim5_counterexample :
    hash 2 4 1 (some pwdBytes) (some saltBytes) 32 .I .Version13
      = .error (.Code .MemoryTooLittle)
    ∧ 4 * 1 ≤ 4 := by
  exact ⟨by decide, by decide⟩

/-- Claim C5 (amended): with the validator checks preceding the memory
check passing, a hash call fails with MemoryTooLittle exactly when the
memory cost is below 8 × lanes; in particular any memory cost of at least
8 × lanes never yields MemoryTooLittle. -/
theorem claim5_memory_iff (t m lanes : Nat) (pwd salt : Option (List Nat))
    (outlen : Nat) (variant : Variant) (version : Version)
    (ht : 1 ≤ t) (h1 : 1 ≤ lanes) (h2 : lanes < 2 ^ 24) :
    hash t m lanes pwd salt outlen variant version
        = .error (.Code .MemoryTooLittle) ↔ m < 8 * lanes := by
  constructor
  · intro h
    rw [hash_eq] at h
    cases hv : validate t m lanes (salt.getD []).length outlen (pwd.getD []).length with
    | error err =>
        rw [hv] at h
        simp only [Except.error.injEq] at h
        subst h
        exact (validate_memory_iff t m lanes _ outlen _ ht h1 h2).mp hv
    | ok u =>
        rw [hv] at h
        exact absurd h (by simp)
  · intro hm
    exact hash_validate_error t m lanes pwd salt outlen variant version _
      ((validate_memory_iff t m lanes _ outlen _ ht h1 h2).mpr hm)

/-- Claim C5 witness: instantiating the amended equivalence at memory cost
7 with one lane, below the 8 × lanes threshold. -/
theorem claim5_memory_iff_witness :
    hash 2 7 1 (some pwdBytes) (some saltBytes) 32 .I .Version13
      = .error (.Code .MemoryTooLittle) :=
  (claim5_memory_iff 2 7 1 (some pwdBytes) (some saltBytes) 32 .I .Version13
    (by decide) (by decide) (by decide)).mpr (by decide)

/-- Claim C6 (amended): a single-byte change — to the password, to the
encoded salt field, or to the encoded stored-hash field of the encoded
string that hashing produced — never makes `verify` return Ok: whenever
the changed string still decodes the result is VerifyMismatch, and a
change that breaks decoding instead propagates the decode failure's own
error kind (e.g. DecodingFail or SaltTooShort), never VerifyMismatch. -/
theorem claim6_single_byte (variant : Variant) (version : Version)
    (t m lanes outlen : Nat) (pwd salt : List Nat)
    (hp : ∀ b ∈ pwd, b < 256) (hs : ∀ b ∈ salt, b < 256)
    (hval : validate t m lanes salt.length outlen pwd.length = .ok ()) :
    (∀ i b', i < pwd.length → b' < 256 → b' ≠ pwd.getD i 0 →
      RejectsChange
        (encodeString variant version t m lanes salt
          (argon2core variant version t m lanes pwd salt outlen))
        (some (pwd.set i b')) variant)
    ∧ (∀ i c', i < (b64encode salt).length → c' ≠ (b64encode salt).getD i 0 →
      RejectsChange
        (encodeWith variant version t m lanes ((b64encode salt).set i c')
          (b64encode (argon2core variant version t m lanes pwd salt outlen)))
        (some pwd) variant)
    ∧ (∀ i c',
        i < (b64encode (argon2core variant version t m lanes pwd salt outlen)).length →
        c' ≠ (b64encode (argon2core variant version t m lanes pwd salt outlen)).getD i 0 →
      RejectsChange
        (encodeWith variant version t m lanes (b64encode salt)
          ((b64encode (argon2core variant version t m lanes pwd salt outlen)).set i c'))
        (some pwd) variant) := by
  obtain ⟨ht, h1, h2, hm, hs8, hs32, ho4, hp32⟩ :=
    (validate_ok_iff t m lanes salt.length outlen pwd.length).mp hval
  have hcb := argon2core_lt variant version t m lanes pwd salt outlen
  have hHlen := argon2core_length variant version t m lanes pwd salt outlen
  have hds : b64decode (b64encode salt) = some salt := b64decode_b64encode salt hs
  have hdh : b64decode (b64encode (argon2core variant version t m lanes pwd salt outlen))
      = some (argon2core variant version t m lanes pwd salt outlen) :=
    b64decode_b64encode _ hcb
  refine ⟨?_, ?_, ?_⟩
  · -- a changed password
    intro i b' hi hb hbne
    apply rejects_of
    intro d hd
    have hdec : decodeString variant
        (encodeString variant version t m lanes salt
          (argon2core variant version t m lanes pwd salt outlen))
        = .ok ⟨version, m, t, lanes, salt,
            argon2core variant version t m lanes pwd salt outlen⟩ :=
      decodeString_encodeString variant version t m lanes salt _ hs hcb hs8
    rw [hdec] at hd
    obtain rfl : d = ⟨version, m, t, lanes, salt,
        argon2core variant version t m lanes pwd salt outlen⟩ := by
      simpa using hd.symm
    refine verify_of_decode _ _ _ _ hdec ?_ ?_
    · show validate t m lanes salt.length
        (argon2core variant version t m lanes pwd salt outlen).length
        (pwd.set i b').length = .ok ()
      rw [hHlen, List.length_set]
      exact hval
    · show argon2core variant version t m lanes (pwd.set i b') salt
        (argon2core variant version t m lanes pwd salt outlen).length
          ≠ argon2core variant version t m lanes pwd salt outlen
      rw [hHlen]
      exact argon2core_ne_set_pwd variant version t m lanes outlen pwd salt i b'
        hi hb hp hbne ho4
  · -- a changed encoded salt field
    intro i c' hi hc'ne
    apply rejects_of
    intro d hd
    have hd0 := hd
    by_cases h36 : c' = 36
    · subst h36
      rw [list_set_take_drop _ i 36 hi] at hd
      rw [decodeString_encodeWith_dollar variant version t m lanes _ _ _
        (fun hmem => not_36_mem_b64encode salt
          ((List.take_sublist i _).subset hmem))] at hd
      exact absurd hd (by simp)
    · have h36' : 36 ∉ (b64encode salt).set i c' := by
        rw [list_set_take_drop _ i c' hi]
        intro hmem
        rcases List.mem_append.mp hmem with hmem | hmem
        · exact not_36_mem_b64encode salt ((List.take_sublist i _).subset hmem)
        · rcases List.mem_cons.mp hmem with hmem | hmem
          · exact h36 hmem.symm
          · exact not_36_mem_b64encode salt ((List.drop_sublist _ _).subset hmem)
      rw [decodeString_encodeWith variant version t m lanes _ _ h36'] at hd
      cases hsd : b64decode ((b64encode salt).set i c') with
      | none =>
          rw [hsd, hdh] at hd
          exact absurd hd (by simp)
      | some salt' =>
          rw [hsd, hdh] at hd
          dsimp only at hd
          obtain ⟨hlen', δ, ex, hδ, hδ64, hdiff⟩ :=
            b64decode_set_diff (b64encode salt) salt salt' i c' hds hsd hi
              (idxVal_ne_of_decodes (b64encode salt) salt salt' i c' hds hsd hi hc'ne)
          rw [if_neg (by omega)] at hd
          obtain rfl : d = ⟨version, m, t, lanes, salt',
              argon2core variant version t m lanes pwd salt outlen⟩ := by
            simpa using hd.symm
          refine verify_of_decode _ _ _ _ hd0 ?_ ?_
          · show validate t m lanes salt'.length
              (argon2core variant version t m lanes pwd salt outlen).length
              pwd.length = .ok ()
            rw [hHlen, hlen']
            exact hval
          · show argon2core variant version t m lanes pwd salt'
              (argon2core variant version t m lanes pwd salt outlen).length
                ≠ argon2core variant version t m lanes pwd salt outlen
            rw [hHlen]
            exact argon2core_ne_salt_diff variant version t m lanes outlen pwd
              salt salt' hlen' δ ex hδ (by show δ < 65537; omega) hdiff ho4
  · -- a changed encoded stored-hash field
    intro i c' hi hc'ne
    apply rejects_of
    intro d hd
    have hd0 := hd
    rw [decodeString_encodeWith variant version t m lanes _ _
      (not_36_mem_b64encode salt)] at hd
    cases hdh' : b64decode
        ((b64encode (argon2core variant version t m lanes pwd salt outlen)).set i c') with
    | none =>
        rw [hds, hdh'] at hd
        exact absurd hd (by simp)
    | some H' =>
        rw [hds, hdh'] at hd
        dsimp only at hd
        rw [if_neg (by omega)] at hd
        obtain rfl : d = ⟨version, m, t, lanes, salt, H'⟩ := by
          simpa using hd.symm
        obtain ⟨hlen', δ, ex, hδ, hδ64, hdiff⟩ :=
          b64decode_set_diff _ _ H' i c' hdh hdh' hi
            (idxVal_ne_of_decodes _ _ H' i c' hdh hdh' hi hc'ne)
        refine verify_of_decode _ _ _ _ hd0 ?_ ?_
        · show validate t m lanes salt.length H'.length pwd.length = .ok ()
          rw [hlen', hHlen]
          exact hval
        · show argon2core variant version t m lanes pwd salt H'.length ≠ H'
          rw [hlen', hHlen]
          intro hEq
          rw [← hEq] at hdiff
          have hpos : 0 < δ * 2 ^ ex := Nat.mul_pos hδ (pow_pos (by omega) ex)
          omega

/-- Claim C6 witness: at t=2, m=64, one lane, the spec's test password and
salt and a 32-byte output, changing password byte 0 to `q` and changing the
first character of the encoded salt field to `!` each make `verify` reject
the string. -/
theorem claim6_single_byte_witness :
    RejectsChange
      (encodeString .I .Version13 2 64 1 saltBytes
        (argon2core .I .Version13 2 64 1 pwdBytes saltBytes 32))
      (some (pwdBytes.set 0 113)) .I
    ∧ RejectsChange
      (encodeWith .I .Version13 2 64 1 ((b64encode saltBytes).set 0 33)
        (b64encode (argon2core .I .Version13 2 64 1 pwdBytes saltBytes 32)))
      (some pwdBytes) .I :=
  ⟨(claim6_single_byte .I .Version13 2 64 1 32 pwdBytes saltBytes
      (by decide) (by decide) (by decide)).1 0 113 (by decide) (by decide) (by decide),
   (claim6_single_byte .I .Version13 2 64 1 32 pwdBytes saltBytes
      (by decide) (by decide) (by decide)).2.1 0 33 (by decide) (by decide)⟩

set_option maxRecDepth 100000 in
/-- Claim C6 counterexample: `encoded10` is otherwise valid (verify accepts
the test password), yet changing the single byte at index 25 — the first
byte of its encoded salt field — to `!` (byte 33) makes verify return
DecodingFail, not VerifyMismatch, refuting the claim that any single-byte
change of the salt field yields VerifyMismatch. -/
theorem claim6_counterexample :
    verify encoded10 (some pwdBytes) .I = .ok ()
    ∧ verify (encoded10.set 25 33) (some pwdBytes) .I = .error (.Code .DecodingFail)
    ∧ (Error.Code .DecodingFail ≠ .Code .VerifyMismatch) :=
  ⟨by decide, by decide, by decide⟩

/-- Claim C7 (amended): for every parameter set, `encodedlen` returns
exactly the byte length of the encoded string produced with the current
(0x13) version; the legacy 0x10 encoding is 5 bytes shorter, since it omits
the `$v=19` field. -/
theorem claim7_encodedlen_exact (variant : Variant) (t m lanes : Nat)
    (salt hash : List Nat) :
    (encodeString variant .Version13 t m lanes salt hash).length
        = encodedlen t m lanes salt.length hash.length variant
    ∧ (encodeString variant .Version10 t m lanes salt hash).length + 5
        = encodedlen t m lanes salt.length hash.length variant := by
  have h19 : (decBytes 19).length = 2 := by decide
  constructor <;>
    simp only [encodeString, encodeWith, versionField, encodedlen, perfBytes,
      List.length_append, List.length_cons,
      List.length_nil, b64encode_length, h19] <;> omega

set_option maxRecDepth 100000 in
/-- Claim C7 counterexample: hashing at the spec's 0x10 test parameters
produces an 80-byte encoded string while `encodedlen` returns 85 for those
parameters, so `encodedlen` is not exactly the produced length for every
parameter set. -/
theorem claim7_counterexample :
    (encOf (hash 2 65536 1 (some pwdBytes) (some saltBytes) 32 .I .Version10)).map
        List.length ≠ some (encodedlen 2 65536 1 8 32 .I)
    ∧ (encOf (hash 2 65536 1 (some pwdBytes) (some saltBytes) 32 .I .Version10)).map
        List.length = some 80
    ∧ encodedlen 2 65536 1 8 32 .I = 85 :=
  ⟨by decide, by decide, by decide⟩

/-- Claim C8: for every context whose output length field is `outlen` and
every hash slice shorter than 2^32, if the slice length differs from
`outlen` then each of `d_verify_ctx`, `i_verify_ctx`, `id_verify_ctx` and
`verify_ctx` returns BadParam "hash.len" — for every underlying
verification function, i.e. without invoking it. -/
theorem claim8_hash_len_guard
    (core : Argon2Context → List Nat → Except Error Unit)
    (corev : Argon2Context → List Nat → Variant → Except Error Unit)
    (c : Argon2Context) (h : List Nat) (variant : Variant)
    (hlen : h.length < 2 ^ 32) (hne : h.length ≠ c.outlen) :
    d_verify_ctx core (.ok c) h = .error (.BadParam ("hash.len"))
    ∧ i_verify_ctx core (.ok c) h = .error (.BadParam ("hash.len"))
    ∧ id_verify_ctx core (.ok c) h = .error (.BadParam ("hash.len"))
    ∧ verify_ctx corev (.ok c) h variant = .error (.BadParam ("hash.len")) := by
  have hmod : h.length % 2 ^ 32 = h.length := Nat.mod_eq_of_lt hlen
  refine ⟨?_, ?_, ?_, ?_⟩ <;>
    simp only [d_verify_ctx, i_verify_ctx, id_verify_ctx, verify_ctx, hmod, hne, ne_eq,
      not_false_eq_true, if_true]

/-- Claim C8 witness: a two-byte hash slice against a context expecting 32
output bytes, under a trivial underlying verification function. -/
theorem claim8_hash_len_guard_witness :
    d_verify_ctx (fun _ _ => .ok ()) (.ok ⟨32, [], [], 2, 65536, 1, 19⟩) [0, 0]
        = .error (.BadParam ("hash.len"))
    ∧ i_verify_ctx (fun _ _ => .ok ()) (.ok ⟨32, [], [], 2, 65536, 1, 19⟩) [0, 0]
        = .error (.BadParam ("hash.len"))
    ∧ id_verify_ctx (fun _ _ => .ok ()) (.ok ⟨32, [], [], 2, 65536, 1, 19⟩) [0, 0]
        = .error (.BadParam ("hash.len"))
    ∧ verify_ctx (fun _ _ _ => .ok ()) (.ok ⟨32, [], [], 2, 65536, 1, 19⟩) [0, 0] .I
        = .error (.BadParam ("hash.len")) :=
  claim8_hash_len_guard (fun _ _ => .ok ()) (fun _ _ _ => .ok ())
    ⟨32, [], [], 2, 65536, 1, 19⟩ [0, 0] .I (by decide) (by decide)

theorem cStrFind_eq : ∀ (bytes acc : List Nat),
    cStrFind acc bytes =
      if 0 ∈ bytes then some (acc ++ (bytes.takeWhile (· ≠ 0) ++ [0])) else none
  | [], acc => by simp [cStrFind]
  | b :: rest, acc => by
      by_cases hb : b = 0
      · subst hb
        simp [cStrFind, List.takeWhile_cons]
      · rw [cStrFind, if_neg hb, cStrFind_eq rest (acc ++ [b])]
        by_cases h0 : 0 ∈ rest
        · rw [if_pos h0, if_pos (by simp [h0])]
          simp [List.takeWhile_cons, hb]
        · rw [if_neg h0, if_neg (by simp [h0, Ne.symm hb])]

theorem not_mem_takeWhile_ne_zero (bytes : List Nat) :
    0 ∉ bytes.takeWhile (· ≠ 0) := by
  intro h
  have := List.mem_takeWhile_imp h
  simp at this

theorem fromBytesWithNul_concat (l : List Nat) (hl : 0 ∉ l) :
    fromBytesWithNul (l ++ [0]) = some (l ++ [0]) := by
  unfold fromBytesWithNul
  rw [if_pos]
  refine ⟨by simp, ?_, ?_⟩
  · rw [List.getLast?_concat]
  · rw [List.dropLast_concat]
    exact hl

theorem takeWhile_zero_indep : ∀ (pre suf suf' : List Nat),
    (pre ++ 0 :: suf).takeWhile (· ≠ 0) = (pre ++ 0 :: suf').takeWhile (· ≠ 0)
  | [], _, _ => by simp [List.takeWhile_cons]
  | p :: pre, suf, suf' => by
      by_cases hp : p = 0
      · subst hp
        simp [List.takeWhile_cons]
      · simp only [List.cons_append, List.takeWhile_cons]
        rw [takeWhile_zero_indep pre suf suf']

theorem cStringNew_of_not_mem (l : List Nat) (h : 0 ∉ l) :
    cStringNew l = some (l ++ [0]) := by
  unfold cStringNew
  rw [if_pos h]

/-- Claim C9: `c_str` returns Ok of the prefix up to and including the
first zero byte exactly when the slice contains a zero byte, and BadParam
"bytes" otherwise; bytes after the first zero never influence the result,
so interior zeros never cause an error. -/
theorem claim9_c_str (bytes : List Nat) :
    (0 ∈ bytes → c_str bytes = some (.ok (bytes.takeWhile (· ≠ 0) ++ [0])))
    ∧ (0 ∉ bytes → c_str bytes = some (.error (.BadParam ("bytes"))))
    ∧ (∀ pre suf suf' : List Nat,
        c_str (pre ++ 0 :: suf) = c_str (pre ++ 0 :: suf')) := by
  have main : ∀ l : List Nat, 0 ∈ l →
      c_str l = some (.ok (l.takeWhile (· ≠ 0) ++ [0])) := by
    intro l h0
    unfold c_str
    rw [cStrFind_eq l [], if_pos h0, List.nil_append]
    dsimp only
    rw [fromBytesWithNul_concat _ (not_mem_takeWhile_ne_zero l), Option.map_some']
  refine ⟨main bytes, ?_, ?_⟩
  · intro h0
    unfold c_str
    rw [cStrFind_eq bytes [], if_neg h0]
  · intro pre suf suf'
    rw [main _ (by simp), main _ (by simp), takeWhile_zero_indep pre suf suf']

/-- Claim C9 witness: `c_str` at a slice with an interior zero, at a slice
with no zero, and at two slices differing only after their first zero. -/
theorem claim9_c_str_witness :
    c_str [1, 0, 2] = some (.ok [1, 0])
    ∧ c_str [3, 4] = some (.error (.BadParam ("bytes")))
    ∧ c_str ([1] ++ 0 :: [2]) = c_str ([1] ++ 0 :: [9, 0]) :=
  ⟨by simpa using (claim9_c_str [1, 0, 2]).1 (by decide),
   (claim9_c_str [3, 4]).2.1 (by decide),
   (claim9_c_str [1]).2.2 [1] [2] [9, 0]⟩

/-- Claim C10: `c_str_cow` is total — it never hits its `expect` panics —
returning the borrowed prefix up to and including the first zero byte when
one exists, and the whole slice with a terminating zero appended (owned)
otherwise. -/
theorem claim10_c_str_cow (bytes : List Nat) :
    (0 ∈ bytes → c_str_cow bytes = some (.borrowed (bytes.takeWhile (· ≠ 0) ++ [0])))
    ∧ (0 ∉ bytes → c_str_cow bytes = some (.owned (bytes ++ [0])))
    ∧ (c_str_cow bytes).isSome = true := by
  have h1 : 0 ∈ bytes →
      c_str_cow bytes = some (.borrowed (bytes.takeWhile (· ≠ 0) ++ [0])) := by
    intro h0
    unfold c_str_cow
    rw [cStrFind_eq bytes [], if_pos h0, List.nil_append]
    dsimp only
    rw [fromBytesWithNul_concat _ (not_mem_takeWhile_ne_zero bytes), Option.map_some']
  have h2 : 0 ∉ bytes → c_str_cow bytes = some (.owned (bytes ++ [0])) := by
    intro h0
    unfold c_str_cow
    rw [cStrFind_eq bytes [], if_neg h0]
    dsimp only
    rw [cStringNew_of_not_mem bytes h0, Option.map_some']
  refine ⟨h1, h2, ?_⟩
  by_cases h0 : 0 ∈ bytes
  · rw [h1 h0]
    rfl
  · rw [h2 h0]
    rfl

/-- Claim C10 witness: the borrowed path at a slice with an interior zero
and the owned path at a slice with no zero, both returning normally. -/
theorem claim10_c_str_cow_witness :
    c_str_cow [5, 0, 6] = some (.borrowed [5, 0])
    ∧ c_str_cow [7] = some (.owned [7, 0])
    ∧ (c_str_cow [5, 0, 6]).isSome = true :=
  ⟨by simpa using (claim10_c_str_cow [5, 0, 6]).1 (by decide),
   (claim10_c_str_cow [7]).2.1 (by decide),
   (claim10_c_str_cow [5, 0, 6]).2.2⟩

end Argon2
